import Mathlib

/-!
# Verification of the splay-tree container (`splay_tree::SplayTree`)

Shallow embedding of the richest header variant of the repository (the one
with split/merge, found in `src/unnamed/part_004`, second document).  Keys are
modelled as `Nat`, the comparator `Compare` as `<` on `Nat` (`std::less`), and
`KeyOfValue` as the identity, matching the instantiations used by the
repository's own tests (`SplayTree<int, int, int>`).

A node pointer structure `SplayTreeNode { value; parent; leftChild; rightChild }`
is modelled by the inductive `SplayTreeNode` (a `leaf` stands for a null child pointer).
The parent pointers, which the C++ code uses to walk and rotate bottom-up, are
modelled by a zipper context `Ctx`: each entry records on which side the
current node hangs off its parent, the parent's key, and the parent's other
subtree.  `plugT` reassembles the tree a zipper denotes; it is the functional
reading of "follow parent pointers back to the root".

The tree object's fields `root_` and `numberOfNodes_` are modelled by the
structure `SplayTree`.  The cached `leftMostNode_` / `rightMostNode_` fields are
not carried separately: every structural operation of the source ends by
recomputing both caches from the root (`splay` and `innerErase` literally do
`leftMostNode_ = getLeftMostNode(); rightMostNode_ = getRightMostNode();`),
so wherever the source reads a cache the embedding reads the same value off
the current root with `getLeftMostNode` / `getRightMostNode`.
-/

/-- Which child slot of the parent the focused node occupies. -/
inductive Dir : Type where
  | left : Dir
  | right : Dir
deriving DecidableEq, Repr

/-- `SplayTreeNode*`: a (sub)tree; `leaf` is the null pointer. -/
inductive SplayTreeNode : Type where
  | leaf : SplayTreeNode
  | node (l : SplayTreeNode) (key : Nat) (r : SplayTreeNode) : SplayTreeNode
deriving DecidableEq, Repr

/-- The chain of parent pointers above a focused node: for each ancestor,
the side the focus hangs on, the ancestor's key, and its other subtree. -/
abbrev Ctx : Type := List (Dir × Nat × SplayTreeNode)

/-- In-order key sequence of a subtree: the order `begin()`..`end()` visits. -/
def inorder : SplayTreeNode → List Nat
  | SplayTreeNode.leaf => []
  | SplayTreeNode.node l k r => inorder l ++ k :: inorder r

/-- Reassemble the whole tree from a focused subtree and its parent chain. -/
def plugT : SplayTreeNode → Ctx → SplayTreeNode
  | t, [] => t
  | t, (Dir.left, k, sib) :: rest => plugT (SplayTreeNode.node t k sib) rest
  | t, (Dir.right, k, sib) :: rest => plugT (SplayTreeNode.node sib k t) rest

/-- Keys that sit before the focused subtree in the in-order traversal of the
reassembled tree. -/
def ctxBefore : Ctx → List Nat
  | [] => []
  | (Dir.left, _, _) :: rest => ctxBefore rest
  | (Dir.right, k, sib) :: rest => ctxBefore rest ++ inorder sib ++ [k]

/-- Keys that sit after the focused subtree in the in-order traversal of the
reassembled tree. -/
def ctxAfter : Ctx → List Nat
  | [] => []
  | (Dir.left, k, sib) :: rest => k :: inorder sib ++ ctxAfter rest
  | (Dir.right, _, _) :: rest => ctxAfter rest

theorem inorder_plugT : ∀ (ctx : Ctx) (t : SplayTreeNode),
    inorder (plugT t ctx) = ctxBefore ctx ++ inorder t ++ ctxAfter ctx := by
  intro ctx
  induction ctx with
  | nil => intro t; simp [plugT, ctxBefore, ctxAfter]
  | cons e rest ih =>
    intro t
    obtain ⟨d, k, sib⟩ := e
    cases d <;> simp [plugT, ctxBefore, ctxAfter, ih, inorder, List.append_assoc]

theorem plugT_append : ∀ (c₁ c₂ : Ctx) (t : SplayTreeNode),
    plugT t (c₁ ++ c₂) = plugT (plugT t c₁) c₂ := by
  intro c₁
  induction c₁ with
  | nil => intro c₂ t; simp [plugT]
  | cons e rest ih =>
    intro c₂ t
    obtain ⟨d, k, sib⟩ := e
    cases d <;> simp [plugT, ih]

/-- `SplayTree::leftRotation(node)`: `node` is the right child of its parent
(key `k`, other subtree `sib`); the rotation lifts `node` one level. -/
def leftRotation (t : SplayTreeNode) (k : Nat) (sib : SplayTreeNode) : SplayTreeNode :=
  match t with
  | SplayTreeNode.node a x b => SplayTreeNode.node (SplayTreeNode.node sib k a) x b
  | SplayTreeNode.leaf => SplayTreeNode.node sib k SplayTreeNode.leaf

/-- `SplayTree::rightRotation(node)`: `node` is the left child of its parent. -/
def rightRotation (t : SplayTreeNode) (k : Nat) (sib : SplayTreeNode) : SplayTreeNode :=
  match t with
  | SplayTreeNode.node a x b => SplayTreeNode.node a x (SplayTreeNode.node b k sib)
  | SplayTreeNode.leaf => SplayTreeNode.node SplayTreeNode.leaf k sib

/-- `SplayTree::zigStep(node)`: the parent is the root; a single rotation on
the side the node occupies. -/
def zigStep (t : SplayTreeNode) (e : Dir × Nat × SplayTreeNode) : SplayTreeNode :=
  match e with
  | (Dir.left, k, sib) => rightRotation t k sib
  | (Dir.right, k, sib) => leftRotation t k sib

/-- `SplayTree::zigZigStep(node)`: node and parent hang on the same side;
the source rotates the parent inside the grandparent first, then the node —
the composition of those two same-direction rotations is written out here. -/
def zigZigStep (t : SplayTreeNode) (e₁ e₂ : Dir × Nat × SplayTreeNode) : SplayTreeNode :=
  match e₁, e₂ with
  | (Dir.left, k₁, s₁), (_, k₂, s₂) => rightRotation t k₁ (SplayTreeNode.node s₁ k₂ s₂)
  | (Dir.right, k₁, s₁), (_, k₂, s₂) => leftRotation t k₁ (SplayTreeNode.node s₂ k₂ s₁)

/-- `SplayTree::zigZagStep(node)`: node and parent hang on opposite sides;
rotate the node through the parent, then through the grandparent. -/
def zigZagStep (t : SplayTreeNode) (e₁ e₂ : Dir × Nat × SplayTreeNode) : SplayTreeNode :=
  match e₁, e₂ with
  | (Dir.left, k₁, s₁), (_, k₂, s₂) => leftRotation (rightRotation t k₁ s₁) k₂ s₂
  | (Dir.right, k₁, s₁), (_, k₂, s₂) => rightRotation (leftRotation t k₁ s₁) k₂ s₂

/-- `SplayTree::splay(node)`: the bottom-up loop.  `ctx` is the parent chain
of the focused node; an empty chain means the node is the root.  One chain
entry left means the parent is the root (zig); otherwise the grandparent test
`(grandParent->leftChild == parent) == (parent->leftChild == node)` picks
zig-zig or zig-zag and consumes two entries. -/
def splay : SplayTreeNode → Ctx → SplayTreeNode
  | t, [] => t
  | t, [e] => zigStep t e
  | t, e₁ :: e₂ :: rest =>
    if e₁.1 = e₂.1 then splay (zigZigStep t e₁ e₂) rest
    else splay (zigZagStep t e₁ e₂) rest

theorem splay_shape_aux : ∀ (n : Nat) (ctx : Ctx), ctx.length ≤ n →
    ∀ (a : SplayTreeNode) (x : Nat) (b : SplayTreeNode),
    ∃ L R, splay (SplayTreeNode.node a x b) ctx = SplayTreeNode.node L x R ∧
      inorder L = ctxBefore ctx ++ inorder a ∧
      inorder R = inorder b ++ ctxAfter ctx := by
  intro n
  induction n with
  | zero =>
    intro ctx hlen a x b
    have : ctx = [] := List.length_eq_zero.mp (Nat.le_zero.mp hlen)
    subst this
    exact ⟨a, b, by simp [splay, ctxBefore, ctxAfter]⟩
  | succ m ih =>
    intro ctx hlen a x b
    match ctx with
    | [] => exact ⟨a, b, by simp [splay, ctxBefore, ctxAfter]⟩
    | [(d, k, sib)] =>
      cases d
      · exact ⟨a, SplayTreeNode.node b k sib,
          by simp [splay, zigStep, rightRotation, ctxBefore, ctxAfter, inorder]⟩
      · exact ⟨SplayTreeNode.node sib k a, b,
          by simp [splay, zigStep, leftRotation, ctxBefore, ctxAfter, inorder]⟩
    | (d₁, k₁, s₁) :: (d₂, k₂, s₂) :: rest =>
      have hrest : rest.length ≤ m := by
        simp [List.length] at hlen
        omega
      cases d₁ <;> cases d₂
      · -- zig-zig, both left
        obtain ⟨L, R, h1, h2, h3⟩ :=
          ih rest hrest a x (SplayTreeNode.node b k₁ (SplayTreeNode.node s₁ k₂ s₂))
        refine ⟨L, R, ?_, ?_, ?_⟩
        · simpa [splay, zigZigStep, rightRotation] using h1
        · simpa [ctxBefore] using h2
        · simp only [inorder] at h3
          simp [ctxAfter, h3, List.append_assoc]
      · -- zig-zag: left child of a right child
        obtain ⟨L, R, h1, h2, h3⟩ :=
          ih rest hrest (SplayTreeNode.node s₂ k₂ a) x (SplayTreeNode.node b k₁ s₁)
        refine ⟨L, R, ?_, ?_, ?_⟩
        · simpa [splay, zigZagStep, rightRotation, leftRotation] using h1
        · simp only [inorder] at h2
          simp [ctxBefore, h2, List.append_assoc]
        · simp only [inorder] at h3
          simp [ctxAfter, h3, List.append_assoc]
      · -- zig-zag: right child of a left child
        obtain ⟨L, R, h1, h2, h3⟩ :=
          ih rest hrest (SplayTreeNode.node s₁ k₁ a) x (SplayTreeNode.node b k₂ s₂)
        refine ⟨L, R, ?_, ?_, ?_⟩
        · simpa [splay, zigZagStep, rightRotation, leftRotation] using h1
        · simp only [inorder] at h2
          simp [ctxBefore, h2, List.append_assoc]
        · simp only [inorder] at h3
          simp [ctxAfter, h3, List.append_assoc]
      · -- zig-zig, both right
        obtain ⟨L, R, h1, h2, h3⟩ :=
          ih rest hrest (SplayTreeNode.node (SplayTreeNode.node s₂ k₂ s₁) k₁ a) x b
        refine ⟨L, R, ?_, ?_, ?_⟩
        · simpa [splay, zigZigStep, leftRotation] using h1
        · simp only [inorder] at h2
          simp [ctxBefore, h2, List.append_assoc]
        · simpa [ctxAfter] using h3

/-- Splaying a node to the root keeps its key at the root and produces the
in-order decomposition of the reassembled tree around that key. -/
theorem splay_shape (ctx : Ctx) (a : SplayTreeNode) (x : Nat) (b : SplayTreeNode) :
    ∃ L R, splay (SplayTreeNode.node a x b) ctx = SplayTreeNode.node L x R ∧
      inorder L = ctxBefore ctx ++ inorder a ∧
      inorder R = inorder b ++ ctxAfter ctx :=
  splay_shape_aux ctx.length ctx (Nat.le_refl _) a x b

/-- The splay loop preserves the in-order key sequence of the whole tree. -/
theorem splay_inorder (ctx : Ctx) (a : SplayTreeNode) (x : Nat) (b : SplayTreeNode) :
    inorder (splay (SplayTreeNode.node a x b) ctx) = inorder (plugT (SplayTreeNode.node a x b) ctx) := by
  obtain ⟨L, R, h1, h2, h3⟩ := splay_shape ctx a x b
  rw [h1, inorder_plugT]
  simp [inorder, h2, h3, List.append_assoc]

/-- `getLeftMostNode(root)`: key of the leftmost node, `none` for a null root. -/
def getLeftMostNode : SplayTreeNode → Option Nat
  | SplayTreeNode.leaf => none
  | SplayTreeNode.node SplayTreeNode.leaf x _ => some x
  | SplayTreeNode.node (SplayTreeNode.node a y b) _ _ =>
      getLeftMostNode (SplayTreeNode.node a y b)

/-- `getRightMostNode(root)`: key of the rightmost node, `none` for a null root. -/
def getRightMostNode : SplayTreeNode → Option Nat
  | SplayTreeNode.leaf => none
  | SplayTreeNode.node _ x SplayTreeNode.leaf => some x
  | SplayTreeNode.node _ _ (SplayTreeNode.node a y b) =>
      getRightMostNode (SplayTreeNode.node a y b)

/-- The `SplayTree` object: `root_` and `numberOfNodes_`. -/
structure SplayTree : Type where
  root : SplayTreeNode
  numberOfNodes : Nat
deriving DecidableEq, Repr

/-- The empty tree: the default-constructed `SplayTree`. -/
def SplayTree.emptyTree : SplayTree := ⟨SplayTreeNode.leaf, 0⟩

/-- Position of a node below a subtree, as the list of child-pointer choices. -/
def subtreeAt : SplayTreeNode → List Dir → Option SplayTreeNode
  | t, [] => some t
  | SplayTreeNode.leaf, _ :: _ => none
  | SplayTreeNode.node l _ _, Dir.left :: p => subtreeAt l p
  | SplayTreeNode.node _ _ r, Dir.right :: p => subtreeAt r p

/-- The root-to-node path denoted by a zipper context. -/
def ctxPath (c : Ctx) : List Dir := (c.map (fun e => e.1)).reverse

/-- `SplayTree::findPlaceToInsertUnique(key)`: walk from the root; stop on an
equivalent key (`keysAreEqual`, which for `Nat` and `<` is equality), else
descend towards `key`, stopping at a node whose child on that side is null.
The zipper of the stopping node is returned; `none` only for the empty tree. -/
def findPlaceToInsertUnique (key : Nat) :
    SplayTreeNode → Ctx → Option (SplayTreeNode × Ctx)
  | SplayTreeNode.leaf, _ => none
  | SplayTreeNode.node l x r, ctx =>
    if x = key then some (SplayTreeNode.node l x r, ctx)
    else if key < x then
      match l with
      | SplayTreeNode.leaf => some (SplayTreeNode.node l x r, ctx)
      | SplayTreeNode.node a y b =>
          findPlaceToInsertUnique key (SplayTreeNode.node a y b) ((Dir.left, x, r) :: ctx)
    else
      match r with
      | SplayTreeNode.leaf => some (SplayTreeNode.node l x r, ctx)
      | SplayTreeNode.node a y b =>
          findPlaceToInsertUnique key (SplayTreeNode.node a y b) ((Dir.right, x, l) :: ctx)

/-- `SplayTree::findPlaceToInsertEqual(key)`: like the unique variant but with
no equality stop — ties descend to the right. -/
def findPlaceToInsertEqual (key : Nat) :
    SplayTreeNode → Ctx → Option (SplayTreeNode × Ctx)
  | SplayTreeNode.leaf, _ => none
  | SplayTreeNode.node l x r, ctx =>
    if key < x then
      match l with
      | SplayTreeNode.leaf => some (SplayTreeNode.node l x r, ctx)
      | SplayTreeNode.node a y b =>
          findPlaceToInsertEqual key (SplayTreeNode.node a y b) ((Dir.left, x, r) :: ctx)
    else
      match r with
      | SplayTreeNode.leaf => some (SplayTreeNode.node l x r, ctx)
      | SplayTreeNode.node a y b =>
          findPlaceToInsertEqual key (SplayTreeNode.node a y b) ((Dir.right, x, l) :: ctx)

/-- `SplayTree::insertUnique(value)`.  Returns the new tree object, the
`inserted` flag, and the path of the node the returned iterator designates
(after a successful insert the new node has been splayed to the root, so the
path is `[]`).  On a duplicate the source returns
`{iterator(placeToInsert, root_), false}` without touching the tree.
Otherwise `innerInsert` links the node under the insertion point on the side
given by `comparator_(key, placeToInsert)` and splays it; for an empty tree
the new node simply becomes the root. -/
def insertUnique (key : Nat) (s : SplayTree) : SplayTree × Bool × List Dir :=
  match findPlaceToInsertUnique key s.root [] with
  | none =>
      (⟨SplayTreeNode.node SplayTreeNode.leaf key SplayTreeNode.leaf,
        s.numberOfNodes + 1⟩, true, [])
  | some (SplayTreeNode.leaf, _) => (s, false, [])
  | some (SplayTreeNode.node l x r, c) =>
    if x = key then (s, false, ctxPath c)
    else if key < x then
      (⟨splay (SplayTreeNode.node SplayTreeNode.leaf key SplayTreeNode.leaf)
          ((Dir.left, x, r) :: c), s.numberOfNodes + 1⟩, true, [])
    else
      (⟨splay (SplayTreeNode.node SplayTreeNode.leaf key SplayTreeNode.leaf)
          ((Dir.right, x, l) :: c), s.numberOfNodes + 1⟩, true, [])

/-- `SplayTree::insertEqual(value)`: unconditional insert, ties to the right,
new node splayed to the root; returns the tree and the iterator path. -/
def insertEqual (key : Nat) (s : SplayTree) : SplayTree × List Dir :=
  match findPlaceToInsertEqual key s.root [] with
  | none =>
      (⟨SplayTreeNode.node SplayTreeNode.leaf key SplayTreeNode.leaf,
        s.numberOfNodes + 1⟩, [])
  | some (SplayTreeNode.leaf, _) => (s, [])
  | some (SplayTreeNode.node l x r, c) =>
    if key < x then
      (⟨splay (SplayTreeNode.node SplayTreeNode.leaf key SplayTreeNode.leaf)
          ((Dir.left, x, r) :: c), s.numberOfNodes + 1⟩, [])
    else
      (⟨splay (SplayTreeNode.node SplayTreeNode.leaf key SplayTreeNode.leaf)
          ((Dir.right, x, l) :: c), s.numberOfNodes + 1⟩, [])

/-- `SplayTree::emplaceUnique(args...)`: the node is constructed first (no
tree effect in value semantics), then the same search/link/splay as
`insertUnique`; on a duplicate the fresh node is destroyed and the tree is
left untouched. -/
def emplaceUnique (key : Nat) (s : SplayTree) : SplayTree × Bool × List Dir :=
  match findPlaceToInsertUnique key s.root [] with
  | none =>
      (⟨SplayTreeNode.node SplayTreeNode.leaf key SplayTreeNode.leaf,
        s.numberOfNodes + 1⟩, true, [])
  | some (SplayTreeNode.leaf, _) => (s, false, [])
  | some (SplayTreeNode.node l x r, c) =>
    if x = key then (s, false, ctxPath c)
    else if key < x then
      (⟨splay (SplayTreeNode.node SplayTreeNode.leaf key SplayTreeNode.leaf)
          ((Dir.left, x, r) :: c), s.numberOfNodes + 1⟩, true, [])
    else
      (⟨splay (SplayTreeNode.node SplayTreeNode.leaf key SplayTreeNode.leaf)
          ((Dir.right, x, l) :: c), s.numberOfNodes + 1⟩, true, [])

/-- Non-const `SplayTree::find(key)`: `innerFind` (a `findPlaceToInsertUnique`
walk plus an equality check) and, on success, a splay of the found node.
Returns the tree and the iterator path (`some []` on success — the found node
is now the root — `none`, i.e. `end()`, otherwise). -/
def findOp (key : Nat) (s : SplayTree) : SplayTree × Option (List Dir) :=
  match findPlaceToInsertUnique key s.root [] with
  | some (SplayTreeNode.node l x r, c) =>
    if x = key then (⟨splay (SplayTreeNode.node l x r) c, s.numberOfNodes⟩, some [])
    else (s, none)
  | _ => (s, none)

/-- The successor exchange inside `SplayTree::innerErase` when the erased
node's in-order successor sits deeper than the right child (the
`nodeToExchange->parent->leftChild == nodeToExchange` branch): the leftmost
node of the given subtree is unlinked (its right child takes its slot), and
the zipper of its former parent — the node the source then splays — is
returned along with the successor's key. -/
def spliceSucc : SplayTreeNode → Nat × SplayTreeNode × Ctx
  | SplayTreeNode.node (SplayTreeNode.node SplayTreeNode.leaf ks sr) kr rr =>
      (ks, SplayTreeNode.node sr kr rr, [])
  | SplayTreeNode.node (SplayTreeNode.node (SplayTreeNode.node p q s) ks sr) kr rr =>
      match spliceSucc (SplayTreeNode.node (SplayTreeNode.node p q s) ks sr) with
      | (k₀, f, c) => (k₀, f, c ++ [(Dir.left, kr, rr)])
  | t => (0, t, [])

/-- `SplayTree::innerErase(node)` for a node with two children.  The source
swaps the node with its in-order successor (pointer surgery that keeps
iterators valid), splices the node out of the vacated position, and splays
the parent of that position.  Net effect on the tree structure: the node's
slot holds the successor with the node's left subtree and the right subtree
minus the successor; the splayed node is the vacated position's parent — the
successor itself when the successor was the right child, its former parent
otherwise. -/
def twoChildrenErase (l r : SplayTreeNode) (ctx : Ctx) : SplayTreeNode :=
  match r with
  | SplayTreeNode.leaf => SplayTreeNode.leaf
  | SplayTreeNode.node SplayTreeNode.leaf ks sr =>
      splay (SplayTreeNode.node l ks sr) ctx
  | SplayTreeNode.node (SplayTreeNode.node p q s) kr rr =>
      match spliceSucc (SplayTreeNode.node (SplayTreeNode.node p q s) kr rr) with
      | (ks, f, c) => splay f (c ++ (Dir.right, ks, l) :: ctx)

/-- `SplayTree::innerErase(node)`: the focused node `node l k r` at context
`ctx` is removed.  Two children: successor surgery (above).  Otherwise the
only child (`node->leftChild ? node->leftChild : node->rightChild`) is
spliced into the parent's slot and the parent is splayed; with no parent the
child becomes the root directly. -/
def innerErase : SplayTreeNode → Nat → SplayTreeNode → Ctx → SplayTreeNode
  | SplayTreeNode.node a x b, _, SplayTreeNode.node p q s, ctx =>
      twoChildrenErase (SplayTreeNode.node a x b) (SplayTreeNode.node p q s) ctx
  | l, _, r, ctx =>
    let child := match l with
      | SplayTreeNode.leaf => r
      | SplayTreeNode.node a x b => SplayTreeNode.node a x b
    match ctx with
    | [] => child
    | (Dir.left, kp, sib) :: rest => splay (SplayTreeNode.node child kp sib) rest
    | (Dir.right, kp, sib) :: rest => splay (SplayTreeNode.node sib kp child) rest

/-- `erase(iterator)` at a node given by its zipper: `innerErase` plus the
`--numberOfNodes_`. -/
def eraseAt (s : SplayTree) (l : SplayTreeNode) (k : Nat) (r : SplayTreeNode)
    (c : Ctx) : SplayTree :=
  ⟨innerErase l k r c, s.numberOfNodes - 1⟩

/-- `SplayTree::innerLowerBound(key)`: walk from the root remembering (as a
zipper) the last node whose key is not less than `key` and descending left
from it, descending right otherwise. -/
def innerLowerBound (key : Nat) :
    SplayTreeNode → Ctx → Option (SplayTreeNode × Ctx) → Option (SplayTreeNode × Ctx)
  | SplayTreeNode.leaf, _, best => best
  | SplayTreeNode.node l x r, ctx, best =>
    if ¬ x < key then
      innerLowerBound key l ((Dir.left, x, r) :: ctx) (some (SplayTreeNode.node l x r, ctx))
    else
      innerLowerBound key r ((Dir.right, x, l) :: ctx) best

/-- `SplayTree::innerSplit(node)`: splay the node to the root, detach both
children (`leftRoot` / `rightRoot`), rebuild `*this` from `leftRoot` and
return a tree built from `rightRoot`; both rebuilt trees recount their sizes
with `std::distance(cbegin(), cend())`.  The pivot node itself ends up in
neither tree.  `none` models the null-pointer dereference
(`leftRoot->parent = nullptr` / `rightRoot->parent = nullptr`) that the
source performs when the splayed node lacks a left or a right child. -/
def innerSplit (l : SplayTreeNode) (x : Nat) (r : SplayTreeNode) (c : Ctx) :
    Option (SplayTree × SplayTree) :=
  match splay (SplayTreeNode.node l x r) c with
  | SplayTreeNode.leaf => none
  | SplayTreeNode.node L _ R =>
    if L = SplayTreeNode.leaf then none
    else if R = SplayTreeNode.leaf then none
    else some (⟨L, (inorder L).length⟩, ⟨R, (inorder R).length⟩)

/-- Outcome of `SplayTree::split(const Key&)`: a normal return, a thrown
`std::runtime_error` (which leaves the receiver in the state it had at the
throw point), or the crash of `innerSplit` on a childless pivot. -/
inductive SplitOutcome : Type where
  | ok (recv ret : SplayTree) : SplitOutcome
  | thrown (recv : SplayTree) : SplitOutcome
  | crashed : SplitOutcome
deriving DecidableEq, Repr

/-- `SplayTree::split(const Key& key)`: `innerLowerBound`, then
`if (!node || KeyOfValue()(node->value) != key) throw std::runtime_error(...)`
— the lookup is const and the throw happens before `innerSplit`, so a thrown
outcome carries the untouched receiver — else `innerSplit(node)`. -/
def splitOp (s : SplayTree) (key : Nat) : SplitOutcome :=
  match innerLowerBound key s.root [] none with
  | some (SplayTreeNode.node l x r, c) =>
    if x = key then
      match innerSplit l x r c with
      | some (a, b) => SplitOutcome.ok a b
      | none => SplitOutcome.crashed
    else SplitOutcome.thrown s
  | _ => SplitOutcome.thrown s

/-- Zipper of the rightmost node of a subtree (`splay(rightMostNode_)` needs
its parent chain). -/
def rightmostZ : SplayTreeNode → Ctx → Option (SplayTreeNode × Ctx)
  | SplayTreeNode.leaf, _ => none
  | SplayTreeNode.node l x SplayTreeNode.leaf, ctx =>
      some (SplayTreeNode.node l x SplayTreeNode.leaf, ctx)
  | SplayTreeNode.node l x (SplayTreeNode.node a y b), ctx =>
      rightmostZ (SplayTreeNode.node a y b) ((Dir.right, x, l) :: ctx)

/-- `SplayTree::innerMerge(rhs)`: splay the receiver's rightmost node to the
root, overwrite its (asserted-null) right child pointer with `rhs.root_`, add
the sizes, and empty `rhs`. -/
def innerMerge (s o : SplayTree) : SplayTree × SplayTree :=
  match rightmostZ s.root [] with
  | none => (s, o)
  | some (f, c) =>
    match splay f c with
    | SplayTreeNode.leaf => (s, o)
    | SplayTreeNode.node L x _ =>
        (⟨SplayTreeNode.node L x o.root, s.numberOfNodes + o.numberOfNodes⟩,
         ⟨SplayTreeNode.leaf, 0⟩)

/-- Outcome of a merge: normal return, thrown key-separation error (receiver
and argument untouched — the check precedes `innerMerge`), or the crash on
reading `rightMostNode_->value` / `rhs.leftMostNode_->value` of an empty
tree. -/
inductive MergeOutcome : Type where
  | ok (recv oth : SplayTree) : MergeOutcome
  | thrown (recv oth : SplayTree) : MergeOutcome
  | crashed : MergeOutcome
deriving DecidableEq, Repr

/-- `SplayTree::mergeUnique(SplayTree&&)`: throws unless
`comparator_(rightMostNode_->value, rhs.leftMostNode_->value)` holds, i.e.
unless the receiver's maximum is strictly below the argument's minimum. -/
def mergeUnique (s o : SplayTree) : MergeOutcome :=
  match getRightMostNode s.root, getLeftMostNode o.root with
  | some rk, some lk =>
    if ¬ rk < lk then MergeOutcome.thrown s o
    else
      match innerMerge s o with
      | (a, b) => MergeOutcome.ok a b
  | _, _ => MergeOutcome.crashed

/-- `SplayTree::mergeEqual(SplayTree&&)`: throws when
`comparator_(rhs.leftMostNode_->value, rightMostNode_->value)` holds, i.e.
when the argument's minimum is strictly below the receiver's maximum. -/
def mergeEqual (s o : SplayTree) : MergeOutcome :=
  match getRightMostNode s.root, getLeftMostNode o.root with
  | some rk, some lk =>
    if lk < rk then MergeOutcome.thrown s o
    else
      match innerMerge s o with
      | (a, b) => MergeOutcome.ok a b
  | _, _ => MergeOutcome.crashed

/-- `SplayTree::copyTree(root)`: `createNode(root->value)` unconditionally
dereferences `root`, so a null root (`leaf`) is the dereference-of-null
branch, modelled as `none`; the recursive calls are guarded by
`if (root->leftChild)` / `if (root->rightChild)` and so never hit it. -/
def copyTree : SplayTreeNode → Option SplayTreeNode
  | SplayTreeNode.leaf => none
  | SplayTreeNode.node l k r =>
    let lc := match l with
      | SplayTreeNode.leaf => SplayTreeNode.leaf
      | SplayTreeNode.node a y b => (copyTree (SplayTreeNode.node a y b)).getD SplayTreeNode.leaf
    let rc := match r with
      | SplayTreeNode.leaf => SplayTreeNode.leaf
      | SplayTreeNode.node a y b => (copyTree (SplayTreeNode.node a y b)).getD SplayTreeNode.leaf
    some (SplayTreeNode.node lc k rc)

/-- Path to the leftmost descendant of a subtree (the descent
`while (currentNode->leftChild) currentNode = currentNode->leftChild`). -/
def leftmostPath : SplayTreeNode → List Dir
  | SplayTreeNode.node (SplayTreeNode.node a y b) _ _ =>
      Dir.left :: leftmostPath (SplayTreeNode.node a y b)
  | _ => []

/-- Path to the rightmost descendant of a subtree. -/
def rightmostPath : SplayTreeNode → List Dir
  | SplayTreeNode.node _ _ (SplayTreeNode.node a y b) =>
      Dir.right :: rightmostPath (SplayTreeNode.node a y b)
  | _ => []

/-- Strip the maximal run of `d`-steps off the end of a path: the functional
form of the `while (parent && parent->dChild == current) current = parent`
climb, whose net effect is to step up as long as the node is a `d`-child. -/
def dropTrailing (d : Dir) (p : List Dir) : List Dir :=
  (p.reverse.dropWhile (fun e => e = d)).reverse

/-- `SplayTreeIterator::operator++` (prefix).  An iterator is `none` for
`end()` or `some p` for the node at path `p` from the root.  With a right
child: descend right, then leftmost.  Otherwise climb while the node is a
right child and move to the parent (past the root means `end()`).  On
`end()` the body is skipped (`if (node_)`). -/
def opInc (t : SplayTreeNode) : Option (List Dir) → Option (List Dir)
  | none => none
  | some p =>
    match subtreeAt t p with
    | some (SplayTreeNode.node _ _ (SplayTreeNode.node a y b)) =>
        some (p ++ Dir.right :: leftmostPath (SplayTreeNode.node a y b))
    | some (SplayTreeNode.node _ _ SplayTreeNode.leaf) =>
        match dropTrailing Dir.right p with
        | [] => none
        | q => some q.dropLast
    | _ => none

/-- `SplayTreeIterator::operator--` (prefix).  From `end()` (`!node_`):
walk from the root to the rightmost node.  With a left child: descend left,
then rightmost.  Otherwise climb while the node is a left child and move to
the parent. -/
def opDecPre (t : SplayTreeNode) : Option (List Dir) → Option (List Dir)
  | none =>
    match t with
    | SplayTreeNode.leaf => none
    | SplayTreeNode.node a y b => some (rightmostPath (SplayTreeNode.node a y b))
  | some p =>
    match subtreeAt t p with
    | some (SplayTreeNode.node (SplayTreeNode.node a y b) _ _) =>
        some (p ++ Dir.left :: rightmostPath (SplayTreeNode.node a y b))
    | some (SplayTreeNode.node SplayTreeNode.leaf _ _) =>
        match dropTrailing Dir.left p with
        | [] => none
        | q => some q.dropLast
    | _ => none

/-- `SplayTreeIterator::operator--(int)` (the post-decrement): the source
saves `old(*this)`, then executes `++(*this)` — not `--(*this)` — and
returns `old`.  The pair is (returned iterator, iterator state afterwards). -/
def opDecPost (t : SplayTreeNode) (it : Option (List Dir)) :
    Option (List Dir) × Option (List Dir) :=
  (it, opInc t it)

theorem findPlaceToInsertUnique_plug (key : Nat) :
    ∀ (t : SplayTreeNode) (ctx : Ctx) (f : SplayTreeNode) (c : Ctx),
    findPlaceToInsertUnique key t ctx = some (f, c) → plugT f c = plugT t ctx := by
  intro t
  induction t with
  | leaf => intro ctx f c h; simp [findPlaceToInsertUnique] at h
  | node l x r ihl ihr =>
    intro ctx f c h
    unfold findPlaceToInsertUnique at h
    by_cases hx : x = key
    · simp only [if_pos hx, Option.some_inj, Prod.mk.injEq] at h
      obtain ⟨h1, h2⟩ := h
      subst h1; subst h2; rfl
    · by_cases hlt : key < x
      · cases l with
        | leaf =>
          simp only [if_neg hx, if_pos hlt, Option.some_inj, Prod.mk.injEq] at h
          obtain ⟨h1, h2⟩ := h
          subst h1; subst h2; rfl
        | node a y b =>
          simp only [if_neg hx, if_pos hlt] at h
          exact ihl _ _ _ h
      · cases r with
        | leaf =>
          simp only [if_neg hx, if_neg hlt, Option.some_inj, Prod.mk.injEq] at h
          obtain ⟨h1, h2⟩ := h
          subst h1; subst h2; rfl
        | node a y b =>
          simp only [if_neg hx, if_neg hlt] at h
          exact ihr _ _ _ h

theorem findPlaceToInsertUnique_found (key : Nat) :
    ∀ (t : SplayTreeNode) (ctx : Ctx),
    List.Pairwise (· ≤ ·) (inorder t) → key ∈ inorder t →
    ∃ l r c, findPlaceToInsertUnique key t ctx = some (SplayTreeNode.node l key r, c) ∧
      plugT (SplayTreeNode.node l key r) c = plugT t ctx := by
  intro t
  induction t with
  | leaf => intro ctx _ hk; simp [inorder] at hk
  | node l x r ihl ihr =>
    intro ctx hs hk
    rw [inorder, List.pairwise_append] at hs
    obtain ⟨hsl, hsr, hcross⟩ := hs
    by_cases hx : x = key
    · subst hx
      exact ⟨l, r, ctx, by unfold findPlaceToInsertUnique; simp, rfl⟩
    · by_cases hlt : key < x
      · have hkl : key ∈ inorder l := by
          rw [inorder, List.mem_append] at hk
          rcases hk with hk | hk
          · exact hk
          · rcases List.mem_cons.mp hk with hk | hk
            · exact absurd hk.symm hx
            · have := (List.pairwise_cons.mp hsr).1 key hk
              omega
        cases l with
        | leaf => simp [inorder] at hkl
        | node a y b =>
          obtain ⟨l', r', c', h1, h2⟩ := ihl ((Dir.left, x, r) :: ctx) hsl hkl
          exact ⟨l', r', c',
            by unfold findPlaceToInsertUnique; simp only [if_neg hx, if_pos hlt]; exact h1, h2⟩
      · have hkr : key ∈ inorder r := by
          rw [inorder, List.mem_append] at hk
          rcases hk with hk | hk
          · have := hcross key hk x (List.mem_cons_self _ _)
            omega
          · rcases List.mem_cons.mp hk with hk | hk
            · exact absurd hk.symm hx
            · exact hk
        have hsr' : List.Pairwise (· ≤ ·) (inorder r) := (List.pairwise_cons.mp hsr).2
        cases r with
        | leaf => simp [inorder] at hkr
        | node a y b =>
          obtain ⟨l', r', c', h1, h2⟩ := ihr ((Dir.right, x, l) :: ctx) hsr' hkr
          exact ⟨l', r', c',
            by unfold findPlaceToInsertUnique; simp only [if_neg hx, if_neg hlt]; exact h1, h2⟩

/-- The attachment context produced by a failed-to-find search walk is
"good" for `key`: reassembling around it partitions the original key
sequence into a strictly-below prefix and a strictly-above suffix. -/
def goodCtx (key : Nat) (c : Ctx) (full : List Nat) : Prop :=
  ctxBefore c ++ ctxAfter c = full ∧
  (∀ y ∈ ctxBefore c, y < key) ∧ (∀ y ∈ ctxAfter c, key < y)

theorem findPlaceToInsertUnique_absent (key : Nat) :
    ∀ (t : SplayTreeNode) (ctx : Ctx), t ≠ SplayTreeNode.leaf →
    List.Pairwise (· ≤ ·) (inorder t) → key ∉ inorder t →
    (∀ y ∈ ctxBefore ctx, y < key) → (∀ y ∈ ctxAfter ctx, key < y) →
    ∃ l x r c,
      findPlaceToInsertUnique key t ctx = some (SplayTreeNode.node l x r, c) ∧
      x ≠ key ∧
      goodCtx key
        (if key < x then (Dir.left, x, r) :: c else (Dir.right, x, l) :: c)
        (inorder (plugT t ctx)) := by
  intro t
  induction t with
  | leaf => intro ctx ht; exact absurd rfl ht
  | node l x r ihl ihr =>
    intro ctx _ hs hk hb ha
    rw [inorder, List.pairwise_append] at hs
    obtain ⟨hsl, hsr, hcross⟩ := hs
    have hxmem : x ∈ inorder (SplayTreeNode.node l x r) := by
      rw [inorder, List.mem_append]
      exact Or.inr (List.mem_cons_self _ _)
    have hx : x ≠ key := fun he => hk (he ▸ hxmem)
    have hkl : key ∉ inorder l := fun hm =>
      hk (by rw [inorder, List.mem_append]; exact Or.inl hm)
    have hkr : key ∉ inorder r := fun hm =>
      hk (by rw [inorder, List.mem_append]; exact Or.inr (List.mem_cons_of_mem _ hm))
    by_cases hlt : key < x
    · have haext : ∀ y ∈ ctxAfter ((Dir.left, x, r) :: ctx), key < y := by
        intro y hy
        simp only [ctxAfter, List.mem_cons, List.mem_append] at hy
        rcases hy with (hy | hy) | hy
        · omega
        · have := (List.pairwise_cons.mp hsr).1 y hy
          omega
        · exact ha y hy
      cases l with
      | leaf =>
        refine ⟨SplayTreeNode.leaf, x, r, ctx, ?_, hx, ?_⟩
        · unfold findPlaceToInsertUnique
          simp [if_neg hx, if_pos hlt]
        · rw [if_pos hlt]
          refine ⟨?_, ?_, haext⟩
          · rw [inorder_plugT]
            simp [ctxBefore, ctxAfter, inorder]
          · intro y hy
            simp only [ctxBefore] at hy
            exact hb y hy
      | node a y b =>
        have hb' : ∀ z ∈ ctxBefore ((Dir.left, x, r) :: ctx), z < key := by
          intro z hz
          simp only [ctxBefore] at hz
          exact hb z hz
        obtain ⟨l', x', r', c', h1, h2, h3⟩ :=
          ihl ((Dir.left, x, r) :: ctx) (by simp) hsl hkl hb' haext
        refine ⟨l', x', r', c', ?_, h2, ?_⟩
        · unfold findPlaceToInsertUnique
          simp only [if_neg hx, if_pos hlt]
          exact h1
        · exact h3
    · have hgt : x < key := by omega
      have hbext : ∀ z ∈ ctxBefore ((Dir.right, x, l) :: ctx), z < key := by
        intro z hz
        simp only [ctxBefore, List.mem_append, List.mem_singleton] at hz
        rcases hz with (hz | hz) | hz
        · exact hb z hz
        · have := hcross z hz x (List.mem_cons_self _ _)
          omega
        · omega
      cases r with
      | leaf =>
        refine ⟨l, x, SplayTreeNode.leaf, ctx, ?_, hx, ?_⟩
        · unfold findPlaceToInsertUnique
          simp [if_neg hx, if_neg hlt]
        · rw [if_neg hlt]
          refine ⟨?_, hbext, ?_⟩
          · rw [inorder_plugT]
            simp [ctxBefore, ctxAfter, inorder]
          · intro z hz
            simp only [ctxAfter] at hz
            exact ha z hz
      | node a y b =>
        have ha' : ∀ z ∈ ctxAfter ((Dir.right, x, l) :: ctx), key < z := by
          intro z hz
          simp only [ctxAfter] at hz
          exact ha z hz
        obtain ⟨l', x', r', c', h1, h2, h3⟩ :=
          ihr ((Dir.right, x, l) :: ctx) (by simp)
            (List.pairwise_cons.mp hsr).2 hkr hbext ha'
        refine ⟨l', x', r', c', ?_, h2, ?_⟩
        · unfold findPlaceToInsertUnique
          simp only [if_neg hx, if_neg hlt]
          exact h1
        · exact h3

/-- Like `goodCtx` but for duplicate-mode insertion, where keys equal to the
inserted one are allowed to sit before it (ties walk right). -/
def goodCtxE (key : Nat) (c : Ctx) (full : List Nat) : Prop :=
  ctxBefore c ++ ctxAfter c = full ∧
  (∀ y ∈ ctxBefore c, y ≤ key) ∧ (∀ y ∈ ctxAfter c, key < y)

theorem findPlaceToInsertEqual_good (key : Nat) :
    ∀ (t : SplayTreeNode) (ctx : Ctx), t ≠ SplayTreeNode.leaf →
    List.Pairwise (· ≤ ·) (inorder t) →
    (∀ y ∈ ctxBefore ctx, y ≤ key) → (∀ y ∈ ctxAfter ctx, key < y) →
    ∃ l x r c,
      findPlaceToInsertEqual key t ctx = some (SplayTreeNode.node l x r, c) ∧
      goodCtxE key
        (if key < x then (Dir.left, x, r) :: c else (Dir.right, x, l) :: c)
        (inorder (plugT t ctx)) := by
  intro t
  induction t with
  | leaf => intro ctx ht; exact absurd rfl ht
  | node l x r ihl ihr =>
    intro ctx _ hs hb ha
    rw [inorder, List.pairwise_append] at hs
    obtain ⟨hsl, hsr, hcross⟩ := hs
    by_cases hlt : key < x
    · have haext : ∀ y ∈ ctxAfter ((Dir.left, x, r) :: ctx), key < y := by
        intro y hy
        simp only [ctxAfter, List.mem_cons, List.mem_append] at hy
        rcases hy with (hy | hy) | hy
        · omega
        · have := (List.pairwise_cons.mp hsr).1 y hy
          omega
        · exact ha y hy
      cases l with
      | leaf =>
        refine ⟨SplayTreeNode.leaf, x, r, ctx, ?_, ?_⟩
        · unfold findPlaceToInsertEqual
          simp [if_pos hlt]
        · rw [if_pos hlt]
          refine ⟨?_, ?_, haext⟩
          · rw [inorder_plugT]
            simp [ctxBefore, ctxAfter, inorder]
          · intro y hy
            simp only [ctxBefore] at hy
            exact hb y hy
      | node a y b =>
        have hb' : ∀ z ∈ ctxBefore ((Dir.left, x, r) :: ctx), z ≤ key := by
          intro z hz
          simp only [ctxBefore] at hz
          exact hb z hz
        obtain ⟨l', x', r', c', h1, h3⟩ :=
          ihl ((Dir.left, x, r) :: ctx) (by simp) hsl hb' haext
        refine ⟨l', x', r', c', ?_, h3⟩
        unfold findPlaceToInsertEqual
        simp only [if_pos hlt]
        exact h1
    · have hle : x ≤ key := by omega
      have hbext : ∀ z ∈ ctxBefore ((Dir.right, x, l) :: ctx), z ≤ key := by
        intro z hz
        simp only [ctxBefore, List.mem_append, List.mem_singleton] at hz
        rcases hz with (hz | hz) | hz
        · exact hb z hz
        · have := hcross z hz x (List.mem_cons_self _ _)
          omega
        · omega
      cases r with
      | leaf =>
        refine ⟨l, x, SplayTreeNode.leaf, ctx, ?_, ?_⟩
        · unfold findPlaceToInsertEqual
          simp [if_neg hlt]
        · rw [if_neg hlt]
          refine ⟨?_, hbext, ?_⟩
          · rw [inorder_plugT]
            simp [ctxBefore, ctxAfter, inorder]
          · intro z hz
            simp only [ctxAfter] at hz
            exact ha z hz
      | node a y b =>
        have ha' : ∀ z ∈ ctxAfter ((Dir.right, x, l) :: ctx), key < z := by
          intro z hz
          simp only [ctxAfter] at hz
          exact ha z hz
        obtain ⟨l', x', r', c', h1, h3⟩ :=
          ihr ((Dir.right, x, l) :: ctx) (by simp)
            (List.pairwise_cons.mp hsr).2 hbext ha'
        refine ⟨l', x', r', c', ?_, h3⟩
        unfold findPlaceToInsertEqual
        simp only [if_neg hlt]
        exact h1

theorem subtreeAt_append : ∀ (p q : List Dir) (t : SplayTreeNode),
    subtreeAt t (p ++ q) = (subtreeAt t p).bind (fun u => subtreeAt u q) := by
  intro p
  induction p with
  | nil => intro q t; simp [subtreeAt]
  | cons d p ih =>
    intro q t
    cases t with
    | leaf => simp [subtreeAt]
    | node l k r => cases d <;> simp [subtreeAt, ih]

theorem subtreeAt_ctxPath : ∀ (c : Ctx) (f : SplayTreeNode),
    subtreeAt (plugT f c) (ctxPath c) = some f := by
  intro c
  induction c with
  | nil => intro f; simp [plugT, ctxPath, subtreeAt]
  | cons e rest ih =>
    intro f
    obtain ⟨d, k, sib⟩ := e
    cases d
    · show subtreeAt (plugT (SplayTreeNode.node f k sib) rest)
        (ctxPath ((Dir.left, k, sib) :: rest)) = some f
      have hp : ctxPath ((Dir.left, k, sib) :: rest) = ctxPath rest ++ [Dir.left] := by
        simp [ctxPath]
      rw [hp, subtreeAt_append, ih]
      simp [subtreeAt]
    · show subtreeAt (plugT (SplayTreeNode.node sib k f) rest)
        (ctxPath ((Dir.right, k, sib) :: rest)) = some f
      have hp : ctxPath ((Dir.right, k, sib) :: rest) = ctxPath rest ++ [Dir.right] := by
        simp [ctxPath]
      rw [hp, subtreeAt_append, ih]
      simp [subtreeAt]

theorem insertUnique_present_spec (s : SplayTree) (key : Nat)
    (hs : List.Pairwise (· ≤ ·) (inorder s.root)) (hk : key ∈ inorder s.root) :
    ∃ p l r, insertUnique key s = (s, false, p) ∧
      subtreeAt s.root p = some (SplayTreeNode.node l key r) := by
  obtain ⟨l, r, c, h1, h2⟩ := findPlaceToInsertUnique_found key s.root [] hs hk
  refine ⟨ctxPath c, l, r, ?_, ?_⟩
  · unfold insertUnique
    rw [h1]
    simp
  · have := subtreeAt_ctxPath c (SplayTreeNode.node l key r)
    rwa [h2] at this

theorem insertUnique_absent_spec (s : SplayTree) (key : Nat)
    (hs : List.Pairwise (· ≤ ·) (inorder s.root)) (hk : key ∉ inorder s.root) :
    ∃ L R, insertUnique key s =
      (⟨SplayTreeNode.node L key R, s.numberOfNodes + 1⟩, true, []) ∧
      inorder L ++ inorder R = inorder s.root ∧
      (∀ y ∈ inorder L, y < key) ∧ (∀ y ∈ inorder R, key < y) := by
  cases hroot : s.root with
  | leaf =>
    refine ⟨SplayTreeNode.leaf, SplayTreeNode.leaf, ?_, by simp [inorder, hroot], ?_, ?_⟩
    · unfold insertUnique
      rw [hroot]
      simp [findPlaceToInsertUnique]
    · intro y hy; simp [inorder] at hy
    · intro y hy; simp [inorder] at hy
  | node l0 x0 r0 =>
    rw [hroot] at hs hk
    obtain ⟨l, x, r, c, h1, hx, hgood⟩ :=
      findPlaceToInsertUnique_absent key (SplayTreeNode.node l0 x0 r0) []
        (by simp) hs hk (by intro y hy; simp [ctxBefore] at hy)
        (by intro y hy; simp [ctxAfter] at hy)
    have hplug : plugT (SplayTreeNode.node l0 x0 r0) ([] : Ctx) =
        SplayTreeNode.node l0 x0 r0 := rfl
    rw [hplug] at hgood
    by_cases hlt : key < x
    · rw [if_pos hlt] at hgood
      obtain ⟨hfull, hbb, haa⟩ := hgood
      obtain ⟨L, R, hsp, hL, hR⟩ :=
        splay_shape ((Dir.left, x, r) :: c) SplayTreeNode.leaf key SplayTreeNode.leaf
      refine ⟨L, R, ?_, ?_, ?_, ?_⟩
      · unfold insertUnique
        rw [hroot, h1]
        simp only [if_neg hx, if_pos hlt, hsp]
      · rw [hL, hR]
        simp only [inorder, List.append_nil, List.nil_append]
        exact hfull
      · intro y hy
        rw [hL] at hy
        simp only [inorder, List.append_nil] at hy
        exact hbb y hy
      · intro y hy
        rw [hR] at hy
        simp only [inorder, List.nil_append] at hy
        exact haa y hy
    · rw [if_neg hlt] at hgood
      obtain ⟨hfull, hbb, haa⟩ := hgood
      obtain ⟨L, R, hsp, hL, hR⟩ :=
        splay_shape ((Dir.right, x, l) :: c) SplayTreeNode.leaf key SplayTreeNode.leaf
      refine ⟨L, R, ?_, ?_, ?_, ?_⟩
      · unfold insertUnique
        rw [hroot, h1]
        simp only [if_neg hx, if_neg hlt, hsp]
      · rw [hL, hR]
        simp only [inorder, List.append_nil, List.nil_append]
        exact hfull
      · intro y hy
        rw [hL] at hy
        simp only [inorder, List.append_nil] at hy
        exact hbb y hy
      · intro y hy
        rw [hR] at hy
        simp only [inorder, List.nil_append] at hy
        exact haa y hy

theorem sorted_wedge {A B : List Nat} {key : Nat}
    (hAB : List.Pairwise (· ≤ ·) (A ++ B))
    (hA : ∀ y ∈ A, y ≤ key) (hB : ∀ y ∈ B, key < y) :
    List.Pairwise (· ≤ ·) (A ++ key :: B) := by
  rw [List.pairwise_append] at hAB ⊢
  obtain ⟨h1, h2, h3⟩ := hAB
  refine ⟨h1, ?_, ?_⟩
  · rw [List.pairwise_cons]
    exact ⟨fun y hy => Nat.le_of_lt (hB y hy), h2⟩
  · intro a haA b hbB
    rcases List.mem_cons.mp hbB with hb | hb
    · exact hb ▸ hA a haA
    · exact h3 a haA b hb

theorem insertUnique_sorted (s : SplayTree) (key : Nat)
    (hs : List.Pairwise (· ≤ ·) (inorder s.root)) :
    List.Pairwise (· ≤ ·) (inorder (insertUnique key s).1.root) := by
  by_cases hk : key ∈ inorder s.root
  · obtain ⟨p, l, r, h1, _⟩ := insertUnique_present_spec s key hs hk
    rw [h1]
    exact hs
  · obtain ⟨L, R, h1, hfull, hbb, haa⟩ := insertUnique_absent_spec s key hs hk
    rw [h1]
    show List.Pairwise (· ≤ ·) (inorder (SplayTreeNode.node L key R))
    rw [inorder]
    exact sorted_wedge (hfull ▸ hs) (fun y hy => Nat.le_of_lt (hbb y hy)) haa

theorem insertEqual_spec (s : SplayTree) (key : Nat)
    (hs : List.Pairwise (· ≤ ·) (inorder s.root)) :
    ∃ L R, insertEqual key s =
      (⟨SplayTreeNode.node L key R, s.numberOfNodes + 1⟩, []) ∧
      inorder L ++ inorder R = inorder s.root ∧
      (∀ y ∈ inorder L, y ≤ key) ∧ (∀ y ∈ inorder R, key < y) := by
  cases hroot : s.root with
  | leaf =>
    refine ⟨SplayTreeNode.leaf, SplayTreeNode.leaf, ?_, by simp [inorder, hroot], ?_, ?_⟩
    · unfold insertEqual
      rw [hroot]
      simp [findPlaceToInsertEqual]
    · intro y hy; simp [inorder] at hy
    · intro y hy; simp [inorder] at hy
  | node l0 x0 r0 =>
    rw [hroot] at hs
    obtain ⟨l, x, r, c, h1, hgood⟩ :=
      findPlaceToInsertEqual_good key (SplayTreeNode.node l0 x0 r0) []
        (by simp) hs (by intro y hy; simp [ctxBefore] at hy)
        (by intro y hy; simp [ctxAfter] at hy)
    have hplug : plugT (SplayTreeNode.node l0 x0 r0) ([] : Ctx) =
        SplayTreeNode.node l0 x0 r0 := rfl
    rw [hplug] at hgood
    by_cases hlt : key < x
    · rw [if_pos hlt] at hgood
      obtain ⟨hfull, hbb, haa⟩ := hgood
      obtain ⟨L, R, hsp, hL, hR⟩ :=
        splay_shape ((Dir.left, x, r) :: c) SplayTreeNode.leaf key SplayTreeNode.leaf
      refine ⟨L, R, ?_, ?_, ?_, ?_⟩
      · unfold insertEqual
        rw [hroot, h1]
        simp only [if_pos hlt, hsp]
      · rw [hL, hR]
        simp only [inorder, List.append_nil, List.nil_append]
        exact hfull
      · intro y hy
        rw [hL] at hy
        simp only [inorder, List.append_nil] at hy
        exact hbb y hy
      · intro y hy
        rw [hR] at hy
        simp only [inorder, List.nil_append] at hy
        exact haa y hy
    · rw [if_neg hlt] at hgood
      obtain ⟨hfull, hbb, haa⟩ := hgood
      obtain ⟨L, R, hsp, hL, hR⟩ :=
        splay_shape ((Dir.right, x, l) :: c) SplayTreeNode.leaf key SplayTreeNode.leaf
      refine ⟨L, R, ?_, ?_, ?_, ?_⟩
      · unfold insertEqual
        rw [hroot, h1]
        simp only [if_neg hlt, hsp]
      · rw [hL, hR]
        simp only [inorder, List.append_nil, List.nil_append]
        exact hfull
      · intro y hy
        rw [hL] at hy
        simp only [inorder, List.append_nil] at hy
        exact hbb y hy
      · intro y hy
        rw [hR] at hy
        simp only [inorder, List.nil_append] at hy
        exact haa y hy

theorem insertEqual_sorted (s : SplayTree) (key : Nat)
    (hs : List.Pairwise (· ≤ ·) (inorder s.root)) :
    List.Pairwise (· ≤ ·) (inorder (insertEqual key s).1.root) := by
  obtain ⟨L, R, h1, hfull, hbb, haa⟩ := insertEqual_spec s key hs
  rw [h1]
  show List.Pairwise (· ≤ ·) (inorder (SplayTreeNode.node L key R))
  rw [inorder]
  exact sorted_wedge (hfull ▸ hs) hbb haa

/-- In value semantics `emplaceUnique` performs the same tree transformation
as `insertUnique` (the node construction and, on a duplicate, destruction
have no effect on the tree). -/
theorem emplaceUnique_eq (key : Nat) (s : SplayTree) :
    emplaceUnique key s = insertUnique key s := rfl

theorem findOp_preserves (key : Nat) (s : SplayTree) :
    inorder (findOp key s).1.root = inorder s.root ∧
    (findOp key s).1.numberOfNodes = s.numberOfNodes := by
  unfold findOp
  cases hfpi : findPlaceToInsertUnique key s.root [] with
  | none => simp
  | some v =>
    obtain ⟨f, c⟩ := v
    cases f with
    | leaf => simp
    | node l x r =>
      by_cases hx : x = key
      · have hplug := findPlaceToInsertUnique_plug key s.root [] _ _ hfpi
        simp only [if_pos hx]
        constructor
        · show inorder (splay (SplayTreeNode.node l x r) c) = inorder s.root
          rw [splay_inorder, hplug]
          rfl
        · trivial
      · simp only [if_neg hx]
        exact ⟨trivial, trivial⟩

theorem spliceSucc_inorder : ∀ (a : SplayTreeNode) (y : Nat) (b : SplayTreeNode)
    (kr : Nat) (rr : SplayTreeNode),
    (spliceSucc (SplayTreeNode.node (SplayTreeNode.node a y b) kr rr)).1 ::
      inorder (plugT (spliceSucc (SplayTreeNode.node (SplayTreeNode.node a y b) kr rr)).2.1
        (spliceSucc (SplayTreeNode.node (SplayTreeNode.node a y b) kr rr)).2.2) =
      inorder (SplayTreeNode.node (SplayTreeNode.node a y b) kr rr) := by
  intro a
  induction a with
  | leaf =>
    intro y b kr rr
    simp [spliceSucc, plugT, inorder]
  | node p q s ihp ihs =>
    intro y b kr rr
    have hrec := ihp q s y b
    show (spliceSucc (SplayTreeNode.node
        (SplayTreeNode.node (SplayTreeNode.node p q s) y b) kr rr)).1 :: _ = _
    unfold spliceSucc
    cases hsp : spliceSucc (SplayTreeNode.node (SplayTreeNode.node p q s) y b) with
    | mk k0 fc =>
      obtain ⟨f, c⟩ := fc
      rw [hsp] at hrec
      simp only at hrec
      simp only [plugT_append]
      have hplug : plugT (plugT f c) [(Dir.left, kr, rr)] =
          SplayTreeNode.node (plugT f c) kr rr := rfl
      rw [hplug]
      show k0 :: inorder (SplayTreeNode.node (plugT f c) kr rr) = _
      have h2 : k0 :: inorder (SplayTreeNode.node (plugT f c) kr rr) =
          (k0 :: inorder (plugT f c)) ++ kr :: inorder rr := by
        simp [inorder]
      rw [h2, hrec]
      simp [inorder, List.append_assoc]

theorem spliceSucc_node : ∀ (a : SplayTreeNode) (y : Nat) (b : SplayTreeNode)
    (kr : Nat) (rr : SplayTreeNode),
    ∃ A X B, (spliceSucc (SplayTreeNode.node (SplayTreeNode.node a y b) kr rr)).2.1 =
      SplayTreeNode.node A X B := by
  intro a
  induction a with
  | leaf =>
    intro y b kr rr
    exact ⟨b, kr, rr, by simp [spliceSucc]⟩
  | node p q s ihp ihs =>
    intro y b kr rr
    obtain ⟨A, X, B, h⟩ := ihp q s y b
    refine ⟨A, X, B, ?_⟩
    unfold spliceSucc
    cases hsp : spliceSucc (SplayTreeNode.node (SplayTreeNode.node p q s) y b) with
    | mk k0 fc =>
      obtain ⟨f, c⟩ := fc
      rw [hsp] at h
      exact h

theorem twoChildrenErase_inorder (l : SplayTreeNode) (rl : SplayTreeNode) (kr : Nat)
    (rr : SplayTreeNode) (ctx : Ctx) :
    inorder (twoChildrenErase l (SplayTreeNode.node rl kr rr) ctx) =
      ctxBefore ctx ++ inorder l ++ inorder (SplayTreeNode.node rl kr rr) ++
        ctxAfter ctx := by
  cases rl with
  | leaf =>
    show inorder (splay (SplayTreeNode.node l kr rr) ctx) = _
    rw [splay_inorder, inorder_plugT]
    simp [inorder, List.append_assoc]
  | node p q s =>
    show inorder
        (match spliceSucc (SplayTreeNode.node (SplayTreeNode.node p q s) kr rr) with
         | (ks, f, c) => splay f (c ++ (Dir.right, ks, l) :: ctx)) = _
    have hino := spliceSucc_inorder p q s kr rr
    have hnode := spliceSucc_node p q s kr rr
    cases hsp : spliceSucc (SplayTreeNode.node (SplayTreeNode.node p q s) kr rr) with
    | mk ks fc =>
      obtain ⟨f, c⟩ := fc
      rw [hsp] at hino hnode
      simp only at hino
      obtain ⟨A, X, B, hf⟩ := hnode
      simp only at hf
      subst hf
      show inorder (splay (SplayTreeNode.node A X B) (c ++ (Dir.right, ks, l) :: ctx)) = _
      rw [splay_inorder, plugT_append]
      have hplug : plugT (plugT (SplayTreeNode.node A X B) c) ((Dir.right, ks, l) :: ctx) =
          plugT (SplayTreeNode.node l ks (plugT (SplayTreeNode.node A X B) c)) ctx := rfl
      rw [hplug, inorder_plugT]
      rw [show inorder (SplayTreeNode.node l ks (plugT (SplayTreeNode.node A X B) c)) =
        inorder l ++ ks :: inorder (plugT (SplayTreeNode.node A X B) c) from rfl]
      rw [hino]
      simp [List.append_assoc]

theorem innerErase_inorder : ∀ (l : SplayTreeNode) (k : Nat) (r : SplayTreeNode)
    (ctx : Ctx),
    inorder (innerErase l k r ctx) =
      ctxBefore ctx ++ inorder l ++ inorder r ++ ctxAfter ctx := by
  intro l k r ctx
  cases l with
  | node a x b =>
    cases r with
    | node p q s =>
      show inorder (twoChildrenErase (SplayTreeNode.node a x b)
        (SplayTreeNode.node p q s) ctx) = _
      exact twoChildrenErase_inorder (SplayTreeNode.node a x b) p q s ctx
    | leaf =>
      match ctx with
      | [] => simp [innerErase, inorder, ctxBefore, ctxAfter]
      | (Dir.left, kp, sib) :: rest =>
        show inorder (splay (SplayTreeNode.node (SplayTreeNode.node a x b) kp sib) rest) = _
        rw [splay_inorder, inorder_plugT]
        simp [inorder, ctxBefore, ctxAfter, List.append_assoc]
      | (Dir.right, kp, sib) :: rest =>
        show inorder (splay (SplayTreeNode.node sib kp (SplayTreeNode.node a x b)) rest) = _
        rw [splay_inorder, inorder_plugT]
        simp [inorder, ctxBefore, ctxAfter, List.append_assoc]
  | leaf =>
    cases r with
    | node p q s =>
      match ctx with
      | [] => simp [innerErase, inorder, ctxBefore, ctxAfter]
      | (Dir.left, kp, sib) :: rest =>
        show inorder (splay (SplayTreeNode.node (SplayTreeNode.node p q s) kp sib) rest) = _
        rw [splay_inorder, inorder_plugT]
        simp [inorder, ctxBefore, ctxAfter, List.append_assoc]
      | (Dir.right, kp, sib) :: rest =>
        show inorder (splay (SplayTreeNode.node sib kp (SplayTreeNode.node p q s)) rest) = _
        rw [splay_inorder, inorder_plugT]
        simp [inorder, ctxBefore, ctxAfter, List.append_assoc]
    | leaf =>
      match ctx with
      | [] => simp [innerErase, inorder, ctxBefore, ctxAfter]
      | (Dir.left, kp, sib) :: rest =>
        show inorder (splay (SplayTreeNode.node SplayTreeNode.leaf kp sib) rest) = _
        rw [splay_inorder, inorder_plugT]
        simp [inorder, ctxBefore, ctxAfter, List.append_assoc]
      | (Dir.right, kp, sib) :: rest =>
        show inorder (splay (SplayTreeNode.node sib kp SplayTreeNode.leaf) rest) = _
        rw [splay_inorder, inorder_plugT]
        simp [inorder, ctxBefore, ctxAfter, List.append_assoc]

theorem innerErase_sorted (l : SplayTreeNode) (k : Nat) (r : SplayTreeNode) (ctx : Ctx)
    (hs : List.Pairwise (· ≤ ·) (inorder (plugT (SplayTreeNode.node l k r) ctx))) :
    List.Pairwise (· ≤ ·) (inorder (innerErase l k r ctx)) := by
  rw [inorder_plugT] at hs
  rw [innerErase_inorder]
  refine List.Pairwise.sublist ?_ hs
  rw [show inorder (SplayTreeNode.node l k r) = inorder l ++ k :: inorder r from rfl]
  rw [List.append_assoc, List.append_assoc, List.append_assoc, List.append_assoc]
  refine List.Sublist.append_left ?_ _
  refine List.Sublist.append_left ?_ _
  exact List.sublist_cons_self _ _

theorem inorder_eq_nil : ∀ (t : SplayTreeNode), inorder t = [] ↔ t = SplayTreeNode.leaf := by
  intro t
  cases t with
  | leaf => simp [inorder]
  | node l k r => simp [inorder]

theorem innerLowerBound_plug (key : Nat) :
    ∀ (t : SplayTreeNode) (ctx : Ctx) (best : Option (SplayTreeNode × Ctx))
      (R : SplayTreeNode),
    plugT t ctx = R →
    (∀ f c, best = some (f, c) → plugT f c = R) →
    ∀ f c, innerLowerBound key t ctx best = some (f, c) → plugT f c = R := by
  intro t
  induction t with
  | leaf =>
    intro ctx best R _ hbest f c h
    exact hbest f c h
  | node l x r ihl ihr =>
    intro ctx best R hplug hbest f c h
    unfold innerLowerBound at h
    by_cases hx : ¬ x < key
    · rw [if_pos hx] at h
      refine ihl ((Dir.left, x, r) :: ctx) _ R hplug ?_ f c h
      intro f' c' he
      obtain ⟨h1, h2⟩ := Prod.mk.injEq .. ▸ Option.some_inj.mp he
      subst h1; subst h2
      exact hplug
    · rw [if_neg hx] at h
      exact ihr ((Dir.right, x, l) :: ctx) best R hplug hbest f c h

theorem innerLowerBound_allBelow (key : Nat) :
    ∀ (t : SplayTreeNode) (ctx : Ctx) (best : Option (SplayTreeNode × Ctx)),
    (∀ y ∈ inorder t, y < key) → innerLowerBound key t ctx best = best := by
  intro t
  induction t with
  | leaf => intro ctx best _; rfl
  | node l x r ihl ihr =>
    intro ctx best hall
    have hx : x < key := hall x (by rw [inorder, List.mem_append]; exact Or.inr (List.mem_cons_self _ _))
    unfold innerLowerBound
    rw [if_neg (by omega)]
    exact ihr _ best (fun y hy => hall y
      (by rw [inorder, List.mem_append]; exact Or.inr (List.mem_cons_of_mem _ hy)))

theorem innerLowerBound_found (key : Nat) :
    ∀ (t : SplayTreeNode) (ctx : Ctx) (best : Option (SplayTreeNode × Ctx)),
    List.Pairwise (· ≤ ·) (inorder t) → key ∈ inorder t →
    ∃ l r c, innerLowerBound key t ctx best =
      some (SplayTreeNode.node l key r, c) ∧
      ((SplayTreeNode.node l key r, c) = (SplayTreeNode.node l key r, ctx) ∧
        plugT (SplayTreeNode.node l key r) c = plugT t ctx ∨
       plugT (SplayTreeNode.node l key r) c = plugT t ctx) := by
  intro t
  induction t with
  | leaf => intro ctx best _ hk; simp [inorder] at hk
  | node l x r ihl ihr =>
    intro ctx best hs hk
    rw [inorder, List.pairwise_append] at hs
    obtain ⟨hsl, hsr, hcross⟩ := hs
    by_cases hlt : x < key
    · have hkr : key ∈ inorder r := by
        rw [inorder, List.mem_append] at hk
        rcases hk with hk | hk
        · have := hcross key hk x (List.mem_cons_self _ _)
          omega
        · rcases List.mem_cons.mp hk with hk | hk
          · omega
          · exact hk
      obtain ⟨l', r', c', h1, h2⟩ :=
        ihr ((Dir.right, x, l) :: ctx) best (List.pairwise_cons.mp hsr).2 hkr
      refine ⟨l', r', c', ?_, Or.inr ?_⟩
      · unfold innerLowerBound
        rw [if_neg (by omega)]
        exact h1
      · rcases h2 with ⟨_, h2⟩ | h2 <;> exact h2
    · by_cases hkl : key ∈ inorder l
      · obtain ⟨l', r', c', h1, h2⟩ :=
          ihl ((Dir.left, x, r) :: ctx) (some (SplayTreeNode.node l x r, ctx)) hsl hkl
        refine ⟨l', r', c', ?_, Or.inr ?_⟩
        · unfold innerLowerBound
          rw [if_pos hlt]
          exact h1
        · rcases h2 with ⟨_, h2⟩ | h2 <;> exact h2
      · have hxk : x = key := by
          rw [inorder, List.mem_append] at hk
          rcases hk with hk | hk
          · exact absurd hk hkl
          · rcases List.mem_cons.mp hk with hk | hk
            · omega
            · have := (List.pairwise_cons.mp hsr).1 key hk
              omega
        have hall : ∀ y ∈ inorder l, y < key := by
          intro y hy
          have hle := hcross y hy x (List.mem_cons_self _ _)
          have hne : y ≠ key := fun he => hkl (he ▸ hy)
          omega
        subst hxk
        refine ⟨l, r, ctx, ?_, Or.inl ⟨rfl, rfl⟩⟩
        unfold innerLowerBound
        rw [if_pos hlt]
        exact innerLowerBound_allBelow _ l _ _ hall

/-- Predicate: the lower-bound accumulator does not hold a node with the
searched key. -/
def lbNoKey (key : Nat) : Option (SplayTreeNode × Ctx) → Prop
  | some (SplayTreeNode.node _ x _, _) => x ≠ key
  | _ => True

theorem innerLowerBound_noKey (key : Nat) :
    ∀ (t : SplayTreeNode) (ctx : Ctx) (best : Option (SplayTreeNode × Ctx)),
    key ∉ inorder t → lbNoKey key best →
    lbNoKey key (innerLowerBound key t ctx best) := by
  intro t
  induction t with
  | leaf => intro ctx best _ hbest; exact hbest
  | node l x r ihl ihr =>
    intro ctx best hk hbest
    have hkl : key ∉ inorder l := fun hm =>
      hk (by rw [inorder, List.mem_append]; exact Or.inl hm)
    have hkr : key ∉ inorder r := fun hm =>
      hk (by rw [inorder, List.mem_append]; exact Or.inr (List.mem_cons_of_mem _ hm))
    have hx : x ≠ key := fun he =>
      hk (by rw [inorder, List.mem_append]; exact Or.inr (he ▸ List.mem_cons_self _ _))
    unfold innerLowerBound
    by_cases hlt : ¬ x < key
    · rw [if_pos hlt]
      exact ihl _ _ hkl hx
    · rw [if_neg hlt]
      exact ihr _ _ hkr hbest

theorem innerSplit_spec (l : SplayTreeNode) (x : Nat) (r : SplayTreeNode) (c : Ctx)
    (a b : SplayTree) (h : innerSplit l x r c = some (a, b)) :
    inorder a.root ++ x :: inorder b.root =
      inorder (plugT (SplayTreeNode.node l x r) c) ∧
    a.numberOfNodes = (inorder a.root).length ∧
    b.numberOfNodes = (inorder b.root).length ∧
    a.root ≠ SplayTreeNode.leaf ∧ b.root ≠ SplayTreeNode.leaf := by
  obtain ⟨L, R, hsp, hL, hR⟩ := splay_shape c l x r
  unfold innerSplit at h
  rw [hsp] at h
  dsimp only at h
  by_cases hLl : L = SplayTreeNode.leaf
  · rw [if_pos hLl] at h; exact absurd h (by simp)
  · rw [if_neg hLl] at h
    by_cases hRl : R = SplayTreeNode.leaf
    · rw [if_pos hRl] at h; exact absurd h (by simp)
    · rw [if_neg hRl] at h
      obtain ⟨h1, h2⟩ := Prod.mk.injEq .. ▸ Option.some_inj.mp h
      subst h1; subst h2
      refine ⟨?_, rfl, rfl, hLl, hRl⟩
      show inorder L ++ x :: inorder R = _
      rw [hL, hR, inorder_plugT]
      rw [show inorder (SplayTreeNode.node l x r) = inorder l ++ x :: inorder r from rfl]
      simp [List.append_assoc]

theorem rightmostZ_spec : ∀ (t : SplayTreeNode) (ctx : Ctx),
    t ≠ SplayTreeNode.leaf →
    ∃ l x c, rightmostZ t ctx = some (SplayTreeNode.node l x SplayTreeNode.leaf, c) ∧
      plugT (SplayTreeNode.node l x SplayTreeNode.leaf) c = plugT t ctx ∧
      ctxAfter c = ctxAfter ctx := by
  intro t
  induction t with
  | leaf => intro ctx h; exact absurd rfl h
  | node l x r ihl ihr =>
    intro ctx _
    cases r with
    | leaf => exact ⟨l, x, ctx, rfl, rfl, rfl⟩
    | node a y b =>
      obtain ⟨l', x', c', h1, h2, h3⟩ := ihr ((Dir.right, x, l) :: ctx) (by simp)
      exact ⟨l', x', c', h1, h2, by rw [h3]; rfl⟩

theorem innerMerge_spec (s o : SplayTree) (hs : s.root ≠ SplayTreeNode.leaf) :
    ∃ L x, innerMerge s o =
      (⟨SplayTreeNode.node L x o.root, s.numberOfNodes + o.numberOfNodes⟩,
       ⟨SplayTreeNode.leaf, 0⟩) ∧
      inorder L ++ [x] = inorder s.root := by
  obtain ⟨l, x, c, h1, h2, h3⟩ := rightmostZ_spec s.root [] hs
  obtain ⟨L, R, hsp, hL, hR⟩ := splay_shape c l x SplayTreeNode.leaf
  have hRnil : R = SplayTreeNode.leaf := by
    rw [← inorder_eq_nil, hR, h3]
    simp [inorder, ctxAfter]
  subst hRnil
  refine ⟨L, x, ?_, ?_⟩
  · unfold innerMerge
    rw [h1]
    dsimp only
    rw [hsp]
  · have : inorder (SplayTreeNode.node L x SplayTreeNode.leaf) =
        inorder (plugT (SplayTreeNode.node l x SplayTreeNode.leaf) c) := by
      rw [← hsp, splay_inorder]
    rw [h2] at this
    have hplug : plugT s.root ([] : Ctx) = s.root := rfl
    rw [hplug] at this
    rw [← this]
    simp [inorder]

theorem getLeftMostNode_head : ∀ (t : SplayTreeNode),
    getLeftMostNode t = (inorder t).head? := by
  intro t
  induction t with
  | leaf => simp [getLeftMostNode, inorder]
  | node l x r ihl ihr =>
    cases l with
    | leaf => simp [getLeftMostNode, inorder]
    | node a y b =>
      show getLeftMostNode (SplayTreeNode.node a y b) = _
      rw [ihl]
      rw [show inorder (SplayTreeNode.node (SplayTreeNode.node a y b) x r) =
        inorder (SplayTreeNode.node a y b) ++ x :: inorder r from rfl]
      have hne : inorder (SplayTreeNode.node a y b) ≠ [] := by
        simp [inorder]
      cases hcase : inorder (SplayTreeNode.node a y b) with
      | nil => exact absurd hcase hne
      | cons h t' => simp

theorem getRightMostNode_getLast : ∀ (t : SplayTreeNode),
    getRightMostNode t = (inorder t).getLast? := by
  intro t
  induction t with
  | leaf => simp [getRightMostNode, inorder]
  | node l x r ihl ihr =>
    cases r with
    | leaf =>
      show some x = _
      rw [show inorder (SplayTreeNode.node l x SplayTreeNode.leaf) =
        inorder l ++ [x] from by simp [inorder]]
      rw [List.getLast?_concat]
    | node a y b =>
      show getRightMostNode (SplayTreeNode.node a y b) = _
      rw [ihr]
      rw [show inorder (SplayTreeNode.node l x (SplayTreeNode.node a y b)) =
        (inorder l ++ [x]) ++ inorder (SplayTreeNode.node a y b) from by
          simp [inorder]]
      have hne : inorder (SplayTreeNode.node a y b) ≠ [] := by
        simp [inorder]
      rw [List.getLast?_append_of_ne_nil _ hne]

theorem pairwise_head_le {l : List Nat} (h : List.Pairwise (· ≤ ·) l) {a : Nat}
    (ha : a ∈ l) {m : Nat} (hm : l.head? = some m) : m ≤ a := by
  cases l with
  | nil => simp at hm
  | cons b t =>
    have hb : b = m := by simpa using hm
    subst hb
    rcases List.mem_cons.mp ha with ha | ha
    · omega
    · exact (List.pairwise_cons.mp h).1 a ha

theorem pairwise_le_getLast {l : List Nat} (h : List.Pairwise (· ≤ ·) l) {a : Nat}
    (ha : a ∈ l) {m : Nat} (hm : l.getLast? = some m) : a ≤ m := by
  induction l with
  | nil => simp at hm
  | cons b t ih =>
    cases t with
    | nil =>
      have hb : b = m := by simpa using hm
      have ha' : a = b := by simpa using ha
      omega
    | cons c t' =>
      have hm' : (c :: t').getLast? = some m := by
        rw [List.getLast?_cons_cons] at hm
        exact hm
      rcases List.mem_cons.mp ha with ha | ha
      · subst ha
        have hmem : m ∈ c :: t' := List.mem_of_mem_getLast? hm'
        exact (List.pairwise_cons.mp h).1 m hmem
      · exact ih (List.pairwise_cons.mp h).2 ha hm'

theorem mergeUnique_ok_spec (s o a b : SplayTree)
    (h : mergeUnique s o = MergeOutcome.ok a b) :
    inorder a.root = inorder s.root ++ inorder o.root ∧
    a.numberOfNodes = s.numberOfNodes + o.numberOfNodes ∧
    b = (⟨SplayTreeNode.leaf, 0⟩ : SplayTree) ∧
    ∃ rk lk, getRightMostNode s.root = some rk ∧ getLeftMostNode o.root = some lk ∧
      rk < lk := by
  unfold mergeUnique at h
  cases hr : getRightMostNode s.root with
  | none => rw [hr] at h; simp at h
  | some rk =>
    cases hl : getLeftMostNode o.root with
    | none => rw [hr, hl] at h; simp at h
    | some lk =>
      rw [hr, hl] at h
      dsimp only at h
      by_cases hsep : ¬ rk < lk
      · rw [if_pos hsep] at h; simp at h
      · rw [if_neg hsep] at h
        have hsroot : s.root ≠ SplayTreeNode.leaf := by
          intro he
          rw [he] at hr
          simp [getRightMostNode] at hr
        obtain ⟨L, x, him, hLx⟩ := innerMerge_spec s o hsroot
        rw [him] at h
        dsimp only at h
        obtain ⟨h1, h2⟩ := MergeOutcome.ok.injEq .. ▸ h
        subst h1; subst h2
        refine ⟨?_, rfl, rfl, rk, lk, rfl, rfl, by omega⟩
        show inorder (SplayTreeNode.node L x o.root) = _
        rw [show inorder (SplayTreeNode.node L x o.root) =
          inorder L ++ x :: inorder o.root from rfl]
        rw [← hLx]
        simp

theorem mergeEqual_ok_spec (s o a b : SplayTree)
    (h : mergeEqual s o = MergeOutcome.ok a b) :
    inorder a.root = inorder s.root ++ inorder o.root ∧
    a.numberOfNodes = s.numberOfNodes + o.numberOfNodes ∧
    b = (⟨SplayTreeNode.leaf, 0⟩ : SplayTree) ∧
    ∃ rk lk, getRightMostNode s.root = some rk ∧ getLeftMostNode o.root = some lk ∧
      rk ≤ lk := by
  unfold mergeEqual at h
  cases hr : getRightMostNode s.root with
  | none => rw [hr] at h; simp at h
  | some rk =>
    cases hl : getLeftMostNode o.root with
    | none => rw [hr, hl] at h; simp at h
    | some lk =>
      rw [hr, hl] at h
      dsimp only at h
      by_cases hsep : lk < rk
      · rw [if_pos hsep] at h; simp at h
      · rw [if_neg hsep] at h
        have hsroot : s.root ≠ SplayTreeNode.leaf := by
          intro he
          rw [he] at hr
          simp [getRightMostNode] at hr
        obtain ⟨L, x, him, hLx⟩ := innerMerge_spec s o hsroot
        rw [him] at h
        dsimp only at h
        obtain ⟨h1, h2⟩ := MergeOutcome.ok.injEq .. ▸ h
        subst h1; subst h2
        refine ⟨?_, rfl, rfl, rk, lk, rfl, rfl, by omega⟩
        show inorder (SplayTreeNode.node L x o.root) = _
        rw [show inorder (SplayTreeNode.node L x o.root) =
          inorder L ++ x :: inorder o.root from rfl]
        rw [← hLx]
        simp

/-- Tree states reachable through the public mutating interface of
`SplayTree`, starting from the default-constructed empty tree:
`insertUnique` / `insertEqual` (their iterator-range forms and the
initializer-list constructor are loops of these), `emplaceUnique`
(`emplaceEqual` is ill-formed — its body reads `newNode` inside the
initializer of a shadowing `auto newNode`, so no tree state ever arises from
it), the splaying `find`, `erase(iterator)` at any node of the tree
(`erase(key)` and `erase(first, last)` are loops of it), both halves of a
successful `innerSplit` (reached from `split(key)` and `split(iterator)`),
and a successful `mergeUnique` / `mergeEqual` (whose donor is left equal to
the empty tree, itself reachable). -/
inductive Reachable : SplayTree → Prop where
  | empty : Reachable SplayTree.emptyTree
  | insertU (k : Nat) {s : SplayTree} : Reachable s → Reachable (insertUnique k s).1
  | insertE (k : Nat) {s : SplayTree} : Reachable s → Reachable (insertEqual k s).1
  | emplaceU (k : Nat) {s : SplayTree} : Reachable s → Reachable (emplaceUnique k s).1
  | findSplay (k : Nat) {s : SplayTree} : Reachable s → Reachable (findOp k s).1
  | eraseIt {s : SplayTree} (l : SplayTreeNode) (k : Nat) (r : SplayTreeNode)
      (c : Ctx) : Reachable s → plugT (SplayTreeNode.node l k r) c = s.root →
      Reachable ⟨innerErase l k r c, s.numberOfNodes - 1⟩
  | splitRecv {s a b : SplayTree} (l : SplayTreeNode) (x : Nat) (r : SplayTreeNode)
      (c : Ctx) : Reachable s → plugT (SplayTreeNode.node l x r) c = s.root →
      innerSplit l x r c = some (a, b) → Reachable a
  | splitRet {s a b : SplayTree} (l : SplayTreeNode) (x : Nat) (r : SplayTreeNode)
      (c : Ctx) : Reachable s → plugT (SplayTreeNode.node l x r) c = s.root →
      innerSplit l x r c = some (a, b) → Reachable b
  | mergeU {s o a b : SplayTree} : Reachable s → Reachable o →
      mergeUnique s o = MergeOutcome.ok a b → Reachable a
  | mergeE {s o a b : SplayTree} : Reachable s → Reachable o →
      mergeEqual s o = MergeOutcome.ok a b → Reachable a

theorem reachable_sorted : ∀ {s : SplayTree}, Reachable s →
    List.Pairwise (· ≤ ·) (inorder s.root) := by
  intro s h
  induction h with
  | empty => simp [SplayTree.emptyTree, inorder]
  | insertU k _ ih => exact insertUnique_sorted _ k ih
  | insertE k _ ih => exact insertEqual_sorted _ k ih
  | emplaceU k _ ih =>
    rw [emplaceUnique_eq]
    exact insertUnique_sorted _ k ih
  | findSplay k _ ih =>
    rw [(findOp_preserves k _).1]
    exact ih
  | eraseIt l k r c _ hplug ih =>
    show List.Pairwise (· ≤ ·) (inorder (innerErase l k r c))
    exact innerErase_sorted l k r c (by rw [hplug]; exact ih)
  | splitRecv l x r c _ hplug hsplit ih =>
    obtain ⟨hdec, _, _, _, _⟩ := innerSplit_spec l x r c _ _ hsplit
    rw [hplug] at hdec
    refine List.Pairwise.sublist ?_ (hdec ▸ ih)
    exact List.sublist_append_left _ _
  | splitRet l x r c _ hplug hsplit ih =>
    obtain ⟨hdec, _, _, _, _⟩ := innerSplit_spec l x r c _ _ hsplit
    rw [hplug] at hdec
    refine List.Pairwise.sublist ?_ (hdec ▸ ih)
    exact List.Sublist.trans (List.sublist_cons_self _ _) (List.sublist_append_right _ _)
  | mergeU hS hO hok ihs iho =>
    obtain ⟨hino, _, _, rk, lk, hrk, hlk, hsep⟩ := mergeUnique_ok_spec _ _ _ _ hok
    rw [hino, List.pairwise_append]
    refine ⟨ihs, iho, ?_⟩
    intro p hp q hq
    have h1 : p ≤ rk := pairwise_le_getLast ihs hp (getRightMostNode_getLast _ ▸ hrk)
    have h2 : lk ≤ q := pairwise_head_le iho hq (getLeftMostNode_head _ ▸ hlk)
    omega
  | mergeE hS hO hok ihs iho =>
    obtain ⟨hino, _, _, rk, lk, hrk, hlk, hsep⟩ := mergeEqual_ok_spec _ _ _ _ hok
    rw [hino, List.pairwise_append]
    refine ⟨ihs, iho, ?_⟩
    intro p hp q hq
    have h1 : p ≤ rk := pairwise_le_getLast ihs hp (getRightMostNode_getLast _ ▸ hrk)
    have h2 : lk ≤ q := pairwise_head_le iho hq (getLeftMostNode_head _ ▸ hlk)
    omega

/-- The tree obtained by `insertUnique(1); insertUnique(2); insertUnique(3)`
on a default-constructed tree: its in-order sequence is `[1, 2, 3]`. -/
def exampleTree123 : SplayTree :=
  (insertUnique 3 (insertUnique 2 (insertUnique 1 SplayTree.emptyTree).1).1).1

/-- The tree obtained by `insertUnique(1); insertUnique(2)`: the root holds 2
and its left child holds 1. -/
def exampleTree12 : SplayTree :=
  (insertUnique 2 (insertUnique 1 SplayTree.emptyTree).1).1

/-- A two-node tree (root 2, left child 1) used for the iterator claims. -/
def exampleIterTree : SplayTreeNode :=
  SplayTreeNode.node (SplayTreeNode.node SplayTreeNode.leaf 1 SplayTreeNode.leaf) 2
    SplayTreeNode.leaf

theorem copyTree_node : ∀ (t : SplayTreeNode), t ≠ SplayTreeNode.leaf →
    copyTree t = some t := by
  intro t
  induction t with
  | leaf => intro h; exact absurd rfl h
  | node l k r ihl ihr =>
    intro _
    unfold copyTree
    cases l with
    | leaf =>
      cases r with
      | leaf => rfl
      | node a y b =>
        dsimp only
        rw [ihr (by simp)]
        rfl
    | node a y b =>
      cases r with
      | leaf =>
        dsimp only
        rw [ihl (by simp)]
        rfl
      | node p q v =>
        dsimp only
        rw [ihl (by simp), ihr (by simp)]
        rfl

/-- Claim C8: copy construction requires a non-empty source.  `copyTree`
reads `root->value` with no null check, so on the empty tree the copy
constructor dereferences a null pointer — the embedding's error branch
(`none`) is reached — while for every non-empty source the deep copy
succeeds and yields a structurally equal tree (equal contents). -/
theorem claim_C8_copy :
    copyTree SplayTreeNode.leaf = none ∧
    ∀ (l : SplayTreeNode) (k : Nat) (r : SplayTreeNode),
      copyTree (SplayTreeNode.node l k r) = some (SplayTreeNode.node l k r) :=
  ⟨rfl, fun l k r => copyTree_node (SplayTreeNode.node l k r) (by simp)⟩

/-- Claim C7: `split` on a key that is not in the tree throws the distinct
`std::runtime_error` (operation precondition not met) rather than silently
doing nothing, and the receiving tree is unchanged when the error is
reported: the outcome is `thrown s`, carrying the untouched receiver,
because the lookup (`innerLowerBound`) is const and the throw precedes
`innerSplit`. -/
theorem claim_C7_split_absent (s : SplayTree) (key : Nat)
    (hk : key ∉ inorder s.root) :
    splitOp s key = SplitOutcome.thrown s := by
  have hnk := innerLowerBound_noKey key s.root [] none hk trivial
  unfold splitOp
  cases hres : innerLowerBound key s.root [] none with
  | none => rfl
  | some v =>
    obtain ⟨f, c⟩ := v
    rw [hres] at hnk
    cases f with
    | leaf => rfl
    | node l x r =>
      have hx : x ≠ key := hnk
      dsimp only
      rw [if_neg hx]

theorem claim_C7_split_absent_witness :
    (5 ∉ inorder exampleTree12.root) ∧
    splitOp exampleTree12 5 = SplitOutcome.thrown exampleTree12 :=
  ⟨by decide, claim_C7_split_absent exampleTree12 5 (by decide)⟩

/-- Claim C6: the prefix decrement does move to the in-order predecessor
(and from `end()` reaches the rightmost node), but the post-decrement
`operator--(int)` executes `++(*this)` in its body, so it moves the iterator
to the in-order successor instead of the predecessor.  At the concrete
two-element tree `{1, 2}` with the iterator on the element 2 (the root):
prefix `--` yields the node holding 1, while the post-decrement leaves the
iterator at `end()`; from `end()`, prefix `--` reaches the rightmost node
(the root, key 2) while the post-decrement leaves the iterator at `end()`. -/
theorem claim_C6_postfix_decrement_bug :
    opDecPost exampleIterTree (some []) = (some [], none) ∧
    opDecPre exampleIterTree (some []) = some [Dir.left] ∧
    subtreeAt exampleIterTree [Dir.left] =
      some (SplayTreeNode.node SplayTreeNode.leaf 1 SplayTreeNode.leaf) ∧
    opDecPre exampleIterTree none = some [] ∧
    opDecPost exampleIterTree none = (none, none) ∧
    ((none : Option (List Dir)) ≠ some [Dir.left]) := by
  refine ⟨?_, ?_, ?_, ?_, ?_, ?_⟩ <;> decide

/-- Claim C2 (failing input): on the unique-mode tree `{1, 2, 3}`, splitting
at the present key 2 and merging the halves back with `mergeUnique` yields
the tree `{1, 3}` of size 2 — not the original sequence `[1, 2, 3]` of
size 3.  `innerSplit` detaches both children of the splayed pivot and keeps
the pivot node in neither result (it is leaked), so the split/merge
round-trip loses exactly the pivot element. -/
theorem claim_C2_roundtrip_loses_pivot :
    inorder exampleTree123.root = [1, 2, 3] ∧
    exampleTree123.numberOfNodes = 3 ∧
    splitOp exampleTree123 2 =
      SplitOutcome.ok
        ⟨SplayTreeNode.node SplayTreeNode.leaf 1 SplayTreeNode.leaf, 1⟩
        ⟨SplayTreeNode.node SplayTreeNode.leaf 3 SplayTreeNode.leaf, 1⟩ ∧
    mergeUnique
        ⟨SplayTreeNode.node SplayTreeNode.leaf 1 SplayTreeNode.leaf, 1⟩
        ⟨SplayTreeNode.node SplayTreeNode.leaf 3 SplayTreeNode.leaf, 1⟩ =
      MergeOutcome.ok
        ⟨SplayTreeNode.node SplayTreeNode.leaf 1
          (SplayTreeNode.node SplayTreeNode.leaf 3 SplayTreeNode.leaf), 2⟩
        ⟨SplayTreeNode.leaf, 0⟩ ∧
    inorder (SplayTreeNode.node SplayTreeNode.leaf 1
      (SplayTreeNode.node SplayTreeNode.leaf 3 SplayTreeNode.leaf)) = [1, 3] ∧
    ([1, 3] ≠ [1, 2, 3]) ∧ (2 ≠ 3) := by
  refine ⟨?_, ?_, ?_, ?_, ?_, ?_, ?_⟩ <;> decide

/-- Claim C1 (counterexample): on the unique-mode tree `{1, 2, 3}`, `split(2)`
does not return the strictly-less tree and does not keep the pivot: the
receiver becomes `{1}` (the detached left subtree), the returned tree is
`{3}` (the right subtree), and the pivot element 2 is in neither tree. -/
theorem claim_C1_counterexample :
    inorder exampleTree123.root = [1, 2, 3] ∧
    splitOp exampleTree123 2 =
      SplitOutcome.ok
        ⟨SplayTreeNode.node SplayTreeNode.leaf 1 SplayTreeNode.leaf, 1⟩
        ⟨SplayTreeNode.node SplayTreeNode.leaf 3 SplayTreeNode.leaf, 1⟩ ∧
    inorder (SplayTreeNode.node SplayTreeNode.leaf 3 SplayTreeNode.leaf) = [3] ∧
    ([3] ≠ [1]) ∧
    (2 ∉ inorder (SplayTreeNode.node SplayTreeNode.leaf 1 SplayTreeNode.leaf)) ∧
    (2 ∉ inorder (SplayTreeNode.node SplayTreeNode.leaf 3 SplayTreeNode.leaf)) ∧
    (2 ∉ inorder (SplayTreeNode.node SplayTreeNode.leaf 1 SplayTreeNode.leaf) ++
      inorder (SplayTreeNode.node SplayTreeNode.leaf 3 SplayTreeNode.leaf)) := by
  refine ⟨?_, ?_, ?_, ?_, ?_, ?_, ?_⟩ <;> decide

/-- Claim C1 (amended): for a strictly-sorted (unique-mode) tree and a
present key that is neither the minimum nor the maximum, `split(key)` splays
the node holding the key to the root and then makes the *receiver* the
detached left subtree (every key strictly less than `key`), *returns* the
tree built from the right subtree (every key strictly greater), drops the
pivot node from both, and recounts both sizes by iteration.  When the key is
the minimum or the maximum the splayed root lacks a child and `innerSplit`
dereferences a null pointer instead. -/
theorem claim_C1_amended (s : SplayTree) (key : Nat)
    (hs : List.Pairwise (· < ·) (inorder s.root))
    (hk : key ∈ inorder s.root)
    (hmin : (inorder s.root).head? ≠ some key)
    (hmax : (inorder s.root).getLast? ≠ some key) :
    ∃ recv ret, splitOp s key = SplitOutcome.ok recv ret ∧
      inorder recv.root = (inorder s.root).filter (fun y => y < key) ∧
      inorder ret.root = (inorder s.root).filter (fun y => key < y) ∧
      key ∉ inorder recv.root ∧ key ∉ inorder ret.root ∧
      recv.numberOfNodes = (inorder recv.root).length ∧
      ret.numberOfNodes = (inorder ret.root).length := by
  have hsle : List.Pairwise (· ≤ ·) (inorder s.root) :=
    hs.imp (fun h => Nat.le_of_lt h)
  obtain ⟨l, r, c, hlb, hdisj⟩ := innerLowerBound_found key s.root [] none hsle hk
  have hplug : plugT (SplayTreeNode.node l key r) c = s.root := by
    rcases hdisj with ⟨_, h⟩ | h <;> exact h
  obtain ⟨L, R, hsp, hL, hR⟩ := splay_shape c l key r
  have hdec : inorder L ++ key :: inorder R = inorder s.root := by
    rw [hL, hR, ← hplug, inorder_plugT]
    rw [show inorder (SplayTreeNode.node l key r) =
      inorder l ++ key :: inorder r from rfl]
    simp [List.append_assoc]
  have hstrict : List.Pairwise (· < ·) (inorder L ++ key :: inorder R) :=
    hdec ▸ hs
  rw [List.pairwise_append] at hstrict
  obtain ⟨hpl, hpr, hcross⟩ := hstrict
  have hbL : ∀ y ∈ inorder L, y < key :=
    fun y hy => hcross y hy key (List.mem_cons_self _ _)
  have hbR : ∀ y ∈ inorder R, key < y := (List.pairwise_cons.mp hpr).1
  have hLleaf : L ≠ SplayTreeNode.leaf := by
    intro he
    apply hmin
    rw [← hdec, he]
    rfl
  have hRleaf : R ≠ SplayTreeNode.leaf := by
    intro he
    apply hmax
    rw [← hdec, he]
    rw [show inorder SplayTreeNode.leaf = [] from rfl]
    rw [show inorder L ++ key :: ([] : List Nat) = inorder L ++ [key] from rfl]
    exact List.getLast?_concat _
  refine ⟨⟨L, (inorder L).length⟩, ⟨R, (inorder R).length⟩, ?_, ?_, ?_, ?_, ?_, rfl, rfl⟩
  · unfold splitOp
    rw [hlb]
    dsimp only
    rw [if_pos rfl]
    unfold innerSplit
    rw [hsp]
    dsimp only
    rw [if_neg hLleaf, if_neg hRleaf]
  · show inorder L = _
    rw [← hdec, List.filter_append]
    rw [List.filter_eq_self.mpr (fun a ha => by simpa using hbL a ha)]
    rw [show (key :: inorder R).filter (fun y => decide (y < key)) =
      (inorder R).filter (fun y => decide (y < key)) from by simp]
    rw [List.filter_eq_nil_iff.mpr (fun a ha => by
      have := hbR a ha
      simp
      omega)]
    simp
  · show inorder R = _
    rw [← hdec, List.filter_append]
    rw [List.filter_eq_nil_iff.mpr (fun a ha => by
      have := hbL a ha
      simp
      omega)]
    rw [show (key :: inorder R).filter (fun y => decide (key < y)) =
      (inorder R).filter (fun y => decide (key < y)) from by simp]
    rw [List.filter_eq_self.mpr (fun a ha => by simpa using hbR a ha)]
    simp
  · show key ∉ inorder L
    intro hm
    have := hbL key hm
    omega
  · show key ∉ inorder R
    intro hm
    have := hbR key hm
    omega

theorem claim_C1_amended_witness :
    (List.Pairwise (· < ·) (inorder exampleTree123.root) ∧
     2 ∈ inorder exampleTree123.root ∧
     (inorder exampleTree123.root).head? ≠ some 2 ∧
     (inorder exampleTree123.root).getLast? ≠ some 2) ∧
    (∃ recv ret, splitOp exampleTree123 2 = SplitOutcome.ok recv ret ∧
      inorder recv.root = (inorder exampleTree123.root).filter (fun y => y < 2) ∧
      inorder ret.root = (inorder exampleTree123.root).filter (fun y => 2 < y) ∧
      2 ∉ inorder recv.root ∧ 2 ∉ inorder ret.root ∧
      recv.numberOfNodes = (inorder recv.root).length ∧
      ret.numberOfNodes = (inorder ret.root).length) :=
  ⟨⟨by decide, by decide, by decide, by decide⟩,
   claim_C1_amended exampleTree123 2 (by decide) (by decide) (by decide) (by decide)⟩

/-- Claim C3 (counterexample): `insertUnique` on a tree already holding an
equivalent key returns `(iterator to the existing element, false)` but does
*not* splay that node to the root — the tree is left completely untouched.
After `insertUnique(1); insertUnique(2)` the root holds 2 and the node
holding 1 is its left child; a second `insertUnique(1)` returns the iterator
to that left child (path `[left]`) with `inserted = false`, and the root
still holds 2, so the existing node was not splayed to the root. -/
theorem claim_C3_counterexample :
    insertUnique 1 exampleTree12 = (exampleTree12, false, [Dir.left]) ∧
    exampleTree12.root =
      SplayTreeNode.node (SplayTreeNode.node SplayTreeNode.leaf 1 SplayTreeNode.leaf) 2
        SplayTreeNode.leaf ∧
    ¬ ∃ L R, (insertUnique 1 exampleTree12).1.root = SplayTreeNode.node L 1 R := by
  refine ⟨by decide, by decide, ?_⟩
  rintro ⟨L, R, h⟩
  have hroot : (insertUnique 1 exampleTree12).1.root =
      SplayTreeNode.node (SplayTreeNode.node SplayTreeNode.leaf 1 SplayTreeNode.leaf) 2
        SplayTreeNode.leaf := by decide
  rw [hroot] at h
  simp at h

/-- Claim C3 (amended): on a tree already containing a key equivalent to
`key`, `insertUnique(key)` returns `(iterator to the existing element,
inserted = false)` without modifying the tree at all — in particular the
existing node is *not* splayed to the root; on a tree without such a key it
creates a node, links it at the insertion point, splays it to the root (the
returned iterator is the root path `[]`), increments the size, and returns
`(iterator, true)`. -/
theorem claim_C3_amended (s : SplayTree) (key : Nat)
    (hs : List.Pairwise (· ≤ ·) (inorder s.root)) :
    (key ∈ inorder s.root →
      ∃ p l r, insertUnique key s = (s, false, p) ∧
        subtreeAt s.root p = some (SplayTreeNode.node l key r)) ∧
    (key ∉ inorder s.root →
      ∃ L R, insertUnique key s =
        (⟨SplayTreeNode.node L key R, s.numberOfNodes + 1⟩, true, []) ∧
        inorder L ++ inorder R = inorder s.root ∧
        (∀ y ∈ inorder L, y < key) ∧ (∀ y ∈ inorder R, key < y)) :=
  ⟨fun hk => insertUnique_present_spec s key hs hk,
   fun hk => insertUnique_absent_spec s key hs hk⟩

theorem claim_C3_amended_witness :
    List.Pairwise (· ≤ ·) (inorder exampleTree12.root) ∧
    ((1 ∈ inorder exampleTree12.root →
      ∃ p l r, insertUnique 1 exampleTree12 = (exampleTree12, false, p) ∧
        subtreeAt exampleTree12.root p = some (SplayTreeNode.node l 1 r)) ∧
     (1 ∉ inorder exampleTree12.root →
      ∃ L R, insertUnique 1 exampleTree12 =
        (⟨SplayTreeNode.node L 1 R, exampleTree12.numberOfNodes + 1⟩, true, []) ∧
        inorder L ++ inorder R = inorder exampleTree12.root ∧
        (∀ y ∈ inorder L, y < 1) ∧ (∀ y ∈ inorder R, 1 < y))) :=
  ⟨by decide, claim_C3_amended exampleTree12 1 (by decide)⟩

/-- Claim C5: every tree reachable through any sequence of the public
operations (`insertUnique`, `insertEqual`, `emplaceUnique`, `erase`, the
splaying `find`, `split`, `mergeUnique`/`mergeEqual`) iterates its elements
in non-decreasing key order: for every pair of elements `a` before `b` in
the in-order (iteration) sequence, `comparator(b, a)` — that is `b < a` —
is false. -/
theorem claim_C5_order_invariant (s : SplayTree) (h : Reachable s) :
    List.Pairwise (fun a b => ¬ b < a) (inorder s.root) :=
  (reachable_sorted h).imp (fun hab => by omega)

theorem claim_C5_order_invariant_witness :
    List.Pairwise (fun a b => ¬ b < a) (inorder exampleTree123.root) :=
  claim_C5_order_invariant exampleTree123
    (Reachable.insertU 3 (Reachable.insertU 2 (Reachable.insertU 1 Reachable.empty)))

/-- Claim C4: for non-empty (sorted) trees, `mergeUnique(other)` throws its
key-separation `std::runtime_error` exactly when some key of `other` fails
to be strictly greater than every key of the receiver, and
`mergeEqual(other)` throws exactly when some key of `other` is strictly less
than some key of the receiver; the throw precedes `innerMerge`, so the
`thrown` outcome carries both trees untouched.  When no error is thrown,
the receiver's in-order sequence becomes the concatenation of both
sequences (all of `other`'s elements are transferred), its size becomes the
sum of the two sizes, and `other` is left empty. -/
theorem claim_C4_merge (s o : SplayTree)
    (hs0 : s.root ≠ SplayTreeNode.leaf) (ho0 : o.root ≠ SplayTreeNode.leaf)
    (hs : List.Pairwise (· ≤ ·) (inorder s.root))
    (ho : List.Pairwise (· ≤ ·) (inorder o.root)) :
    (mergeUnique s o = MergeOutcome.thrown s o ↔
      ∃ y ∈ inorder o.root, ∃ x ∈ inorder s.root, ¬ x < y) ∧
    (mergeEqual s o = MergeOutcome.thrown s o ↔
      ∃ y ∈ inorder o.root, ∃ x ∈ inorder s.root, y < x) ∧
    (∀ a b, mergeUnique s o = MergeOutcome.ok a b →
      inorder a.root = inorder s.root ++ inorder o.root ∧
      a.numberOfNodes = s.numberOfNodes + o.numberOfNodes ∧
      b = (⟨SplayTreeNode.leaf, 0⟩ : SplayTree)) ∧
    (∀ a b, mergeEqual s o = MergeOutcome.ok a b →
      inorder a.root = inorder s.root ++ inorder o.root ∧
      a.numberOfNodes = s.numberOfNodes + o.numberOfNodes ∧
      b = (⟨SplayTreeNode.leaf, 0⟩ : SplayTree)) := by
  have hsne : inorder s.root ≠ [] := fun he => hs0 ((inorder_eq_nil _).mp he)
  have hone : inorder o.root ≠ [] := fun he => ho0 ((inorder_eq_nil _).mp he)
  obtain ⟨rk, hrk⟩ := Option.isSome_iff_exists.mp
    ((getRightMostNode_getLast s.root) ▸ List.getLast?_isSome.mpr hsne)
  obtain ⟨lk, hlk⟩ := Option.isSome_iff_exists.mp
    ((getLeftMostNode_head o.root) ▸
      (by cases hcase : inorder o.root with
          | nil => exact absurd hcase hone
          | cons a t => simp [hcase] : (inorder o.root).head?.isSome))
  have hrkLast : (inorder s.root).getLast? = some rk :=
    (getRightMostNode_getLast s.root) ▸ hrk
  have hlkHead : (inorder o.root).head? = some lk :=
    (getLeftMostNode_head o.root) ▸ hlk
  have hrkMem : rk ∈ inorder s.root := List.mem_of_mem_getLast? hrkLast
  have hlkMem : lk ∈ inorder o.root := List.mem_of_mem_head? hlkHead
  refine ⟨?_, ?_, ?_, ?_⟩
  · unfold mergeUnique
    rw [hrk, hlk]
    dsimp only
    by_cases hsep : ¬ rk < lk
    · rw [if_pos hsep]
      exact Iff.intro (fun _ => ⟨lk, hlkMem, rk, hrkMem, hsep⟩) (fun _ => rfl)
    · rw [if_neg hsep]
      obtain ⟨L, x, him, _⟩ := innerMerge_spec s o hs0
      rw [him]
      dsimp only
      refine Iff.intro (fun h => by simp at h) ?_
      rintro ⟨y, hy, x', hx', hxy⟩
      have h1 : x' ≤ rk := pairwise_le_getLast hs hx' hrkLast
      have h2 : lk ≤ y := pairwise_head_le ho hy hlkHead
      omega
  · unfold mergeEqual
    rw [hrk, hlk]
    dsimp only
    by_cases hsep : lk < rk
    · rw [if_pos hsep]
      exact Iff.intro (fun _ => ⟨lk, hlkMem, rk, hrkMem, hsep⟩) (fun _ => rfl)
    · rw [if_neg hsep]
      obtain ⟨L, x, him, _⟩ := innerMerge_spec s o hs0
      rw [him]
      dsimp only
      refine Iff.intro (fun h => by simp at h) ?_
      rintro ⟨y, hy, x', hx', hxy⟩
      have h1 : x' ≤ rk := pairwise_le_getLast hs hx' hrkLast
      have h2 : lk ≤ y := pairwise_head_le ho hy hlkHead
      omega
  · intro a b h
    obtain ⟨h1, h2, h3, _⟩ := mergeUnique_ok_spec s o a b h
    exact ⟨h1, h2, h3⟩
  · intro a b h
    obtain ⟨h1, h2, h3, _⟩ := mergeEqual_ok_spec s o a b h
    exact ⟨h1, h2, h3⟩

theorem claim_C4_merge_witness :
    ((⟨SplayTreeNode.node SplayTreeNode.leaf 1 SplayTreeNode.leaf, 1⟩ :
        SplayTree).root ≠ SplayTreeNode.leaf ∧
     (⟨SplayTreeNode.node SplayTreeNode.leaf 2 SplayTreeNode.leaf, 1⟩ :
        SplayTree).root ≠ SplayTreeNode.leaf ∧
     List.Pairwise (· ≤ ·)
       (inorder (⟨SplayTreeNode.node SplayTreeNode.leaf 1 SplayTreeNode.leaf, 1⟩ :
         SplayTree).root) ∧
     List.Pairwise (· ≤ ·)
       (inorder (⟨SplayTreeNode.node SplayTreeNode.leaf 2 SplayTreeNode.leaf, 1⟩ :
         SplayTree).root)) ∧
    ((mergeUnique ⟨SplayTreeNode.node SplayTreeNode.leaf 1 SplayTreeNode.leaf, 1⟩
        ⟨SplayTreeNode.node SplayTreeNode.leaf 2 SplayTreeNode.leaf, 1⟩ =
        MergeOutcome.thrown
          ⟨SplayTreeNode.node SplayTreeNode.leaf 1 SplayTreeNode.leaf, 1⟩
          ⟨SplayTreeNode.node SplayTreeNode.leaf 2 SplayTreeNode.leaf, 1⟩ ↔
      ∃ y ∈ inorder (SplayTreeNode.node SplayTreeNode.leaf 2 SplayTreeNode.leaf),
        ∃ x ∈ inorder (SplayTreeNode.node SplayTreeNode.leaf 1 SplayTreeNode.leaf),
          ¬ x < y) ∧
     (mergeEqual ⟨SplayTreeNode.node SplayTreeNode.leaf 1 SplayTreeNode.leaf, 1⟩
        ⟨SplayTreeNode.node SplayTreeNode.leaf 2 SplayTreeNode.leaf, 1⟩ =
        MergeOutcome.thrown
          ⟨SplayTreeNode.node SplayTreeNode.leaf 1 SplayTreeNode.leaf, 1⟩
          ⟨SplayTreeNode.node SplayTreeNode.leaf 2 SplayTreeNode.leaf, 1⟩ ↔
      ∃ y ∈ inorder (SplayTreeNode.node SplayTreeNode.leaf 2 SplayTreeNode.leaf),
        ∃ x ∈ inorder (SplayTreeNode.node SplayTreeNode.leaf 1 SplayTreeNode.leaf),
          y < x) ∧
     (∀ a b, mergeUnique ⟨SplayTreeNode.node SplayTreeNode.leaf 1 SplayTreeNode.leaf, 1⟩
        ⟨SplayTreeNode.node SplayTreeNode.leaf 2 SplayTreeNode.leaf, 1⟩ =
        MergeOutcome.ok a b →
      inorder a.root =
        inorder (SplayTreeNode.node SplayTreeNode.leaf 1 SplayTreeNode.leaf) ++
          inorder (SplayTreeNode.node SplayTreeNode.leaf 2 SplayTreeNode.leaf) ∧
      a.numberOfNodes = 1 + 1 ∧
      b = (⟨SplayTreeNode.leaf, 0⟩ : SplayTree)) ∧
     (∀ a b, mergeEqual ⟨SplayTreeNode.node SplayTreeNode.leaf 1 SplayTreeNode.leaf, 1⟩
        ⟨SplayTreeNode.node SplayTreeNode.leaf 2 SplayTreeNode.leaf, 1⟩ =
        MergeOutcome.ok a b →
      inorder a.root =
        inorder (SplayTreeNode.node SplayTreeNode.leaf 1 SplayTreeNode.leaf) ++
          inorder (SplayTreeNode.node SplayTreeNode.leaf 2 SplayTreeNode.leaf) ∧
      a.numberOfNodes = 1 + 1 ∧
      b = (⟨SplayTreeNode.leaf, 0⟩ : SplayTree))) :=
  ⟨⟨by decide, by decide, by decide, by decide⟩,
   claim_C4_merge
     ⟨SplayTreeNode.node SplayTreeNode.leaf 1 SplayTreeNode.leaf, 1⟩
     ⟨SplayTreeNode.node SplayTreeNode.leaf 2 SplayTreeNode.leaf, 1⟩
     (by decide) (by decide) (by decide) (by decide)⟩
